import Mathlib

/-!
Verification of the `pii_shield` PII detection / de-identification library.

Texts are modelled as `List Char` (Python strings are sequences of characters
and all spans in the code are character indices).  Python `float` confidence
scores are modelled as `ℚ`: the code only ever compares confidences and copies
them around, so the literals `0.6`, `0.7`, `0.8`, `0.9`, `0.95`, `1.0` act as
an ordered set of constants and `ℚ` is a faithful carrier for them.
-/

set_option autoImplicit false

namespace PIIShield

/-- `PIIType` from `core/types.py`: the enumeration of detectable PII kinds. -/
inductive PIIType where
  | EMAIL
  | PHONE
  | IBAN
  | CREDIT_CARD
  | GERMAN_ID
  | IP_ADDRESS
  | NAME
  | ADDRESS
  | DATE_OF_BIRTH
  | UNKNOWN
deriving DecidableEq, Repr

/-- The `.value` string of each enum member (`PIIType(str, Enum)`). -/
def PIIType.value : PIIType → String
  | .EMAIL => "EMAIL"
  | .PHONE => "PHONE"
  | .IBAN => "IBAN"
  | .CREDIT_CARD => "CREDIT_CARD"
  | .GERMAN_ID => "GERMAN_ID"
  | .IP_ADDRESS => "IP_ADDRESS"
  | .NAME => "NAME"
  | .ADDRESS => "ADDRESS"
  | .DATE_OF_BIRTH => "DATE_OF_BIRTH"
  | .UNKNOWN => "UNKNOWN"

/-- `PIIMatch` from `core/models.py`.  The Python field `end` is called `stop`
here (`end` is a Lean keyword).  A value of this structure corresponds to a
*successfully constructed* Python `PIIMatch`, hence `start`/`stop` are `Nat`
(the validator rejects negative starts, see `mkPIIMatch`). -/
structure PIIMatch where
  type : PIIType
  text : List Char
  start : Nat
  stop : Nat
  confidence : ℚ
  detector : String
deriving DecidableEq, Repr

/-- `PIIMatch.__post_init__` from `core/models.py`: the validating constructor.
Python raises `ValueError`; we model a raised exception as `.error msg`.
Arguments `s` (start) and `e` (end) are `Int` because the caller may pass any
integer; on success they are stored unchanged (no clamping). -/
def mkPIIMatch (t : PIIType) (txt : List Char) (s e : Int) (conf : ℚ)
    (det : String) : Except String PIIMatch :=
  if s < 0 then .error "start position must be non-negative"
  else if e < s then .error "end position must be >= start position"
  else if ¬ (0 ≤ conf ∧ conf ≤ 1) then
    .error "confidence must be between 0.0 and 1.0"
  else .ok ⟨t, txt, s.toNat, e.toNat, conf, det⟩

/-- `PIIMatch.overlaps` from `core/models.py`:
`self.start < other.end and other.start < self.end`. -/
def PIIMatch.overlapsWith (a b : PIIMatch) : Bool :=
  decide (a.start < b.stop) && decide (b.start < a.stop)

/-- C9: Constructing a Match with `end < start`, or `start < 0`, or confidence
outside `[0, 1]` fails with a validation error; on success the stored values
equal the given ones (never clamped) and satisfy `0 ≤ start ≤ end` and
`0 ≤ confidence ≤ 1`. -/
theorem C9_match_construction_validates (t : PIIType) (txt : List Char)
    (s e : Int) (conf : ℚ) (det : String) :
    (∀ m : PIIMatch, mkPIIMatch t txt s e conf det = .ok m →
      0 ≤ s ∧ s ≤ e ∧ 0 ≤ conf ∧ conf ≤ 1 ∧
      (m.start : Int) = s ∧ (m.stop : Int) = e ∧ m.confidence = conf) ∧
    ((s < 0 ∨ e < s ∨ conf < 0 ∨ 1 < conf) →
      ∃ msg, mkPIIMatch t txt s e conf det = .error msg) := by
  constructor
  · intro m hm
    unfold mkPIIMatch at hm
    split at hm
    · exact absurd hm (by simp)
    · rename_i hs
      split at hm
      · exact absurd hm (by simp)
      · rename_i he
        split at hm
        · exact absurd hm (by simp)
        · rename_i hc
          push_neg at hs he hc
          simp only [Except.ok.injEq] at hm
          subst hm
          refine ⟨hs, he, hc.1, hc.2, ?_, ?_, rfl⟩
          · simpa using Int.toNat_of_nonneg hs
          · simpa using Int.toNat_of_nonneg (le_trans hs he)
  · intro hbad
    unfold mkPIIMatch
    split
    · exact ⟨_, rfl⟩
    · rename_i hs
      split
      · exact ⟨_, rfl⟩
      · rename_i he
        split
        · exact ⟨_, rfl⟩
        · rename_i hc
          push_neg at hs he hc
          rcases hbad with h | h | h | h
          · exact absurd hs (by omega)
          · exact absurd he (by omega)
          · exact absurd hc.1 (by simp; linarith)
          · exact absurd hc.2 (by simp; linarith)

/-- Witness for C9 at concrete inputs: `start = -1` is rejected, and
`(start, end, conf) = (2, 5, 1/2)` is accepted with fields stored unchanged. -/
theorem C9_witness :
    (∃ msg, mkPIIMatch .EMAIL [] (-1) 3 (1/2) "d" = .error msg) ∧
    (∀ m : PIIMatch, mkPIIMatch .EMAIL [] 2 5 (1/2) "d" = .ok m →
      0 ≤ (2 : Int) ∧ (2 : Int) ≤ 5 ∧ 0 ≤ (1/2 : ℚ) ∧ (1/2 : ℚ) ≤ 1 ∧
      (m.start : Int) = 2 ∧ (m.stop : Int) = 5 ∧ m.confidence = 1/2) :=
  ⟨(C9_match_construction_validates .EMAIL [] (-1) 3 (1/2) "d").2
      (Or.inl (by decide)),
   (C9_match_construction_validates .EMAIL [] 2 5 (1/2) "d").1⟩

/-! ### De-identification strategies (`strategies/`)

`RedactionStrategy.apply`, `MaskingStrategy.apply` and `HashingStrategy.apply`
share one loop: sort the matches by `start` descending, then for each match
replace `result[m.start:m.end]` by a replacement string, right to left.  The
three strategies differ only in the replacement function (placeholder tag,
masked text, truncated SHA-256 hash), so the loop is factored out here as
`applyRewrite` over an arbitrary replacement function `rep`. -/

/-- Ordering used by `sorted(matches, key=lambda m: m.start, reverse=True)`:
matches with larger `start` come first. -/
def startGe (a b : PIIMatch) : Prop := b.start ≤ a.start

instance : DecidableRel startGe := fun a b => Nat.decLe b.start a.start

/-- The descending sort every strategy performs before rewriting.
`List.insertionSort` is stable exactly like the Python builtin `sorted`. -/
def sortByStartDesc (ms : List PIIMatch) : List PIIMatch :=
  List.insertionSort startGe ms

/-- One rewrite step: `result[:m.start] + rep(m) + result[m.end:]`. -/
def splice (rep : PIIMatch → List Char) (res : List Char) (m : PIIMatch) :
    List Char :=
  res.take m.start ++ rep m ++ res.drop m.stop

/-- The shared `apply` loop of the three strategies. -/
def applyRewrite (rep : PIIMatch → List Char) (text : List Char)
    (ms : List PIIMatch) : List Char :=
  (sortByStartDesc ms).foldl (splice rep) text

/-- The replacement used by `RedactionStrategy` with the default
`placeholder_format` (a `[`, then the `.value` name of the PII type, then a `]`). -/
def redactionRep (m : PIIMatch) : List Char :=
  '[' :: m.type.value.data ++ [']']

/-- `RedactionStrategy.apply` with the default placeholder format, including
its early return on an empty match list. -/
def redactionApply (text : List Char) (ms : List PIIMatch) : List Char :=
  if ms.isEmpty then text else applyRewrite redactionRep text ms

/-- Python `value[-k:]` for `k = visible_chars`: the last `k` characters,
except that `value[-0:]` is the whole string. -/
def pySuffix (v : List Char) (k : Nat) : List Char :=
  if k = 0 then v else v.drop (v.length - k)

/-- `MaskingStrategy._mask`: mask the middle, keep `visible` chars at each
side; fully mask short values. -/
def maskValue (maskChar : Char) (visible : Nat) (v : List Char) : List Char :=
  if v.length ≤ visible * 2 then List.replicate v.length maskChar
  else v.take visible ++ List.replicate 3 maskChar ++ pySuffix v visible

/-- `MaskingStrategy.apply`. -/
def maskingApply (maskChar : Char) (visible : Nat) (text : List Char)
    (ms : List PIIMatch) : List Char :=
  applyRewrite (fun m => maskValue maskChar visible m.text) text ms

/-! Spec-side constructions for claim C1. -/

/-- Ascending ordering on `start` (spec side: "matches sorted by start"). -/
def startLe (a b : PIIMatch) : Prop := a.start ≤ b.start

instance : DecidableRel startLe := fun a b => Nat.decLe a.start b.start

/-- Ascending sort by `start` (spec side). -/
def sortByStartAsc (ms : List PIIMatch) : List PIIMatch :=
  List.insertionSort startLe ms

/-- Spec-side reconstruction of the rewritten text from matches sorted
ascending by `start`: each maximal uncovered region of the original text
appears verbatim between the replacements, in order. -/
def reconstruct (rep : PIIMatch → List Char) (text : List Char) :
    Nat → List PIIMatch → List Char
  | pos, [] => text.drop pos
  | pos, m :: rest =>
      (text.drop pos).take (m.start - pos) ++ rep m ++
        reconstruct rep text m.stop rest

/-- Well-formed descending chain of matches below bound `n`: strictly
decreasing disjoint nonempty spans, all ending at or before `n`. -/
def DescOK : List PIIMatch → Nat → Prop
  | [], _ => True
  | m :: rest, n => m.stop ≤ n ∧ m.start < m.stop ∧ DescOK rest m.start

/-- Well-formed ascending chain of matches between `pos` and bound `n`. -/
def AscOK : Nat → List PIIMatch → Nat → Prop
  | _, [], _ => True
  | pos, m :: rest, n =>
      pos ≤ m.start ∧ m.start < m.stop ∧ m.stop ≤ n ∧ AscOK m.stop rest n

theorem splice_append (rep : PIIMatch → List Char) (t1 t2 : List Char)
    (m : PIIMatch) (hs : m.start ≤ t1.length) (he : m.stop ≤ t1.length) :
    splice rep (t1 ++ t2) m = splice rep t1 m ++ t2 := by
  unfold splice
  rw [List.take_append_of_le_length hs, List.drop_append_of_le_length he]
  simp

theorem splice_length_ge (rep : PIIMatch → List Char) (t : List Char)
    (m : PIIMatch) (hs : m.start ≤ t.length) :
    m.start ≤ (splice rep t m).length := by
  simp only [splice, List.length_append, List.length_take, List.length_drop]
  omega

theorem foldl_splice_append (rep : PIIMatch → List Char) :
    ∀ (ms : List PIIMatch) (t1 t2 : List Char) (n : Nat),
      DescOK ms n → n ≤ t1.length →
      List.foldl (splice rep) (t1 ++ t2) ms =
        List.foldl (splice rep) t1 ms ++ t2
  | [], _, _, _, _, _ => rfl
  | m :: rest, t1, t2, n, ⟨h1, h2, h3⟩, hn => by
    have hs : m.start ≤ t1.length := by omega
    have he : m.stop ≤ t1.length := by omega
    rw [List.foldl_cons, List.foldl_cons, splice_append rep t1 t2 m hs he]
    exact foldl_splice_append rep rest (splice rep t1 m) t2 m.start h3
      (splice_length_ge rep t1 m hs)

/-- Right-to-left reconstruction along a descending match list: all indices
refer to the original text. -/
def reconD (rep : PIIMatch → List Char) (text : List Char) :
    List PIIMatch → List Char
  | [] => text
  | m :: rest =>
      reconD rep (text.take m.start) rest ++ rep m ++ text.drop m.stop

theorem foldl_splice_eq_reconD (rep : PIIMatch → List Char) :
    ∀ (ms : List PIIMatch) (text : List Char), DescOK ms text.length →
      List.foldl (splice rep) text ms = reconD rep text ms
  | [], _, _ => rfl
  | m :: rest, text, ⟨h1, h2, h3⟩ => by
    have hlen : (text.take m.start).length = m.start := by
      simp only [List.length_take]; omega
    have hsp : splice rep text m =
        text.take m.start ++ (rep m ++ text.drop m.stop) := by
      simp [splice]
    rw [List.foldl_cons, hsp,
      foldl_splice_append rep rest (text.take m.start) _ m.start h3 hlen.ge,
      foldl_splice_eq_reconD rep rest (text.take m.start)
        (by rw [hlen]; exact h3)]
    simp [reconD]

theorem ascOK_append_singleton :
    ∀ (b : List PIIMatch) (y : PIIMatch) (pos n : Nat),
      AscOK pos (b ++ [y]) n →
      AscOK pos b y.start ∧ pos ≤ y.start ∧ y.start < y.stop ∧ y.stop ≤ n
  | [], y, pos, n, ⟨h1, h2, h3, _⟩ => ⟨trivial, h1, h2, h3⟩
  | m :: b, y, pos, n, ⟨h1, h2, h3, h4⟩ => by
    obtain ⟨ih1, ih2, ih3, ih4⟩ := ascOK_append_singleton b y m.stop n h4
    exact ⟨⟨h1, h2, ih2, ih1⟩, by omega, ih3, ih4⟩

theorem reconstruct_append_singleton (rep : PIIMatch → List Char) :
    ∀ (b : List PIIMatch) (text : List Char) (pos : Nat) (y : PIIMatch),
      AscOK pos b y.start → pos ≤ y.start →
      reconstruct rep text pos (b ++ [y]) =
        reconstruct rep (text.take y.start) pos b ++ rep y ++
          text.drop y.stop
  | [], text, pos, y, _, hp => by
    simp [reconstruct, List.drop_take]
  | m :: b, text, pos, y, ⟨h1, h2, h3, h4⟩, hp => by
    have ih := reconstruct_append_singleton rep b text m.stop y h4 h3
    have hgap : ((text.take y.start).drop pos).take (m.start - pos) =
        (text.drop pos).take (m.start - pos) := by
      rw [List.drop_take, List.take_take]
      congr 1
      omega
    simp only [List.cons_append, reconstruct, hgap, List.append_eq]
    rw [ih]
    simp

theorem reconD_reverse_eq_reconstruct (rep : PIIMatch → List Char)
    (a : List PIIMatch) :
    ∀ (text : List Char), AscOK 0 a text.length →
      reconD rep text a.reverse = reconstruct rep text 0 a := by
  induction a using List.reverseRecOn with
  | nil => intro text _; simp [reconD, reconstruct]
  | append_singleton b y ih =>
    intro text hasc
    obtain ⟨hb, _, hy1, hy2⟩ :=
      ascOK_append_singleton b y 0 text.length hasc
    have htake : (text.take y.start).length = y.start := by
      simp only [List.length_take]; omega
    have : (b ++ [y]).reverse = y :: b.reverse := by simp
    rw [this, reconD, ih (text.take y.start) (by rw [htake]; exact hb),
      reconstruct_append_singleton rep b text 0 y hb (Nat.zero_le _)]

theorem ascOK_of_pairwise :
    ∀ (a : List PIIMatch) (n : Nat),
      (∀ m ∈ a, m.start < m.stop ∧ m.stop ≤ n) →
      a.Pairwise (fun x y => x.stop ≤ y.start) →
      ∀ pos, (∀ m ∈ a, pos ≤ m.start) → AscOK pos a n
  | [], _, _, _, _, _ => trivial
  | m :: rest, n, hin, hpw, pos, hpos => by
    obtain ⟨h1, h2⟩ := hin m (.head _)
    have hpw' := List.pairwise_cons.mp hpw
    exact ⟨hpos m (.head _), h1, h2,
      ascOK_of_pairwise rest n (fun x hx => hin x (.tail _ hx)) hpw'.2
        m.stop (fun x hx => hpw'.1 x hx)⟩

theorem descOK_reverse (a : List PIIMatch) :
    ∀ (pos n : Nat), AscOK pos a n → DescOK a.reverse n := by
  induction a using List.reverseRecOn with
  | nil => intro pos n _; trivial
  | append_singleton b y ih =>
    intro pos n hasc
    obtain ⟨hb, _, h1, h2⟩ := ascOK_append_singleton b y pos n hasc
    have : (b ++ [y]).reverse = y :: b.reverse := by simp
    rw [this]
    exact ⟨h2, h1, ih pos y.start hb⟩

/-- Strict descending ordering on `start`, used to identify the two sorts. -/
def startGt (a b : PIIMatch) : Prop := b.start < a.start

instance : IsTotal PIIMatch startLe := ⟨fun a b => Nat.le_total a.start b.start⟩

instance : IsTrans PIIMatch startLe := ⟨fun _ _ _ => Nat.le_trans⟩

instance : IsTotal PIIMatch startGe := ⟨fun a b => Nat.le_total b.start a.start⟩

instance : IsTrans PIIMatch startGe := ⟨fun _ _ _ hab hbc => Nat.le_trans hbc hab⟩

instance : IsAntisymm PIIMatch startGt :=
  ⟨fun _ _ h1 h2 => absurd (Nat.lt_trans h1 h2) (Nat.lt_irrefl _)⟩

theorem overlapsWith_eq_false_iff (a b : PIIMatch) :
    a.overlapsWith b = false ↔ (b.stop ≤ a.start ∨ a.stop ≤ b.start) := by
  simp only [PIIMatch.overlapsWith, Bool.and_eq_false_iff,
    decide_eq_false_iff_not, Nat.not_lt]

/-- C1 (amended: every match span is nonempty, i.e. `start < end`): applying a
right-to-left rewrite of a strategy to pairwise non-overlapping spans lying
within the text yields exactly the interleaving of the untouched maximal
regions of the text (verbatim, in place) with the replacements taken in
ascending span order — so no earlier (lower-start) replacement point is ever
shifted by a later replacement.  Quantifying over the replacement function
`rep` covers redaction, masking and hashing at once. -/
theorem C1_strategy_rewrite_preserves_untouched_regions
    (rep : PIIMatch → List Char) (text : List Char) (ms : List PIIMatch)
    (hnov : ms.Pairwise (fun a b => a.overlapsWith b = false))
    (hspan : ∀ m ∈ ms, m.start < m.stop ∧ m.stop ≤ text.length) :
    applyRewrite rep text ms = reconstruct rep text 0 (sortByStartAsc ms) := by
  have haperm : List.Perm (sortByStartAsc ms) ms := List.perm_insertionSort startLe ms
  have hdperm : List.Perm (sortByStartDesc ms) ms := List.perm_insertionSort startGe ms
  have hasorted : List.Sorted startLe (sortByStartAsc ms) :=
    List.sorted_insertionSort startLe ms
  have hdsorted : List.Sorted startGe (sortByStartDesc ms) :=
    List.sorted_insertionSort startGe ms
  have hsymm : ∀ {x y : PIIMatch},
      x.overlapsWith y = false → y.overlapsWith x = false := by
    intro x y h
    rw [overlapsWith_eq_false_iff] at h ⊢
    omega
  have hanov := (List.Perm.pairwise_iff hsymm haperm).mpr hnov
  have hdnov := (List.Perm.pairwise_iff hsymm hdperm).mpr hnov
  have haspan : ∀ m ∈ sortByStartAsc ms, m.start < m.stop ∧
      m.stop ≤ text.length := fun m hm => hspan m (haperm.mem_iff.mp hm)
  have hdspan : ∀ m ∈ sortByStartDesc ms, m.start < m.stop ∧
      m.stop ≤ text.length := fun m hm => hspan m (hdperm.mem_iff.mp hm)
  have hgap : (sortByStartAsc ms).Pairwise (fun x y => x.stop ≤ y.start) := by
    refine (hasorted.and hanov).imp_of_mem ?_
    intro x y hx hy hxy
    obtain ⟨hle, hno⟩ := hxy
    rw [overlapsWith_eq_false_iff] at hno
    have h1 := (haspan x hx).1
    have h2 := (haspan y hy).1
    have hle' : x.start ≤ y.start := hle
    omega
  have hasc : AscOK 0 (sortByStartAsc ms) text.length :=
    ascOK_of_pairwise _ text.length haspan hgap 0 (fun _ _ => Nat.zero_le _)
  have hdesc : DescOK (sortByStartAsc ms).reverse text.length :=
    descOK_reverse _ 0 text.length hasc
  have hrevgt : List.Sorted startGt (sortByStartAsc ms).reverse := by
    rw [List.Sorted, List.pairwise_reverse]
    refine hgap.imp_of_mem ?_
    intro x y hx hy hxy
    have h1 := (haspan x hx).1
    show x.start < y.start
    omega
  have hdgt : List.Sorted startGt (sortByStartDesc ms) := by
    refine (hdsorted.and hdnov).imp_of_mem ?_
    intro x y hx hy hxy
    obtain ⟨hge, hno⟩ := hxy
    rw [overlapsWith_eq_false_iff] at hno
    have h1 := (hdspan x hx).1
    have h2 := (hdspan y hy).1
    have hge' : y.start ≤ x.start := hge
    show y.start < x.start
    omega
  have hdeq : sortByStartDesc ms = (sortByStartAsc ms).reverse :=
    List.eq_of_perm_of_sorted
      (hdperm.trans (haperm.symm.trans (List.reverse_perm _).symm)) hdgt hrevgt
  calc applyRewrite rep text ms
      = List.foldl (splice rep) text (sortByStartDesc ms) := rfl
    _ = List.foldl (splice rep) text (sortByStartAsc ms).reverse := by
        rw [hdeq]
    _ = reconD rep text (sortByStartAsc ms).reverse :=
        foldl_splice_eq_reconD rep _ text hdesc
    _ = reconstruct rep text 0 (sortByStartAsc ms) :=
        reconD_reverse_eq_reconstruct rep _ text hasc

/-- Zero-length match used by the C1 counterexample. -/
def cexMatch1 : PIIMatch := ⟨.EMAIL, [], 2, 2, 1, "d"⟩

/-- Nonempty match sharing its `start` with `cexMatch1`. -/
def cexMatch2 : PIIMatch := ⟨.PHONE, ['c', 'd', 'e'], 2, 5, 1, "d"⟩

/-- Text for the C1 counterexample. -/
def cexText : List Char := ['a', 'b', 'c', 'd', 'e', 'f', 'g', 'h']

/-- C1 as stated is false: the match set `[cexMatch1, cexMatch2]` is pairwise
non-overlapping (under the `overlaps` predicate of the code a zero-length span
overlaps nothing) and lies within the text, yet the right-to-left rewrite does
not leave the untouched regions intact in place — the rewritten text is
`"ab[PHONE]AIL]cdefgh"`, which even leaks the covered characters `cde`,
instead of `"ab[EMAIL][PHONE]fgh"`. -/
theorem C1_claim_counterexample :
    ([cexMatch1, cexMatch2].Pairwise (fun a b => a.overlapsWith b = false)) ∧
    (∀ m ∈ [cexMatch1, cexMatch2],
      m.start ≤ m.stop ∧ m.stop ≤ cexText.length) ∧
    applyRewrite redactionRep cexText [cexMatch1, cexMatch2] ≠
      reconstruct redactionRep cexText 0
        (sortByStartAsc [cexMatch1, cexMatch2]) := by
  decide

/-- Match used by the C1 witness. -/
def witMatch1 : PIIMatch := ⟨.EMAIL, ['c', 'd'], 2, 4, 1, "email"⟩

/-- Witness for C1 at a concrete input: redacting the single span `[2, 4)` of
`"abcdef"` rewrites it to the reconstruction with the untouched regions
preserved. -/
theorem C1_witness :
    applyRewrite redactionRep ['a', 'b', 'c', 'd', 'e', 'f'] [witMatch1] =
      reconstruct redactionRep ['a', 'b', 'c', 'd', 'e', 'f'] 0
        (sortByStartAsc [witMatch1]) :=
  C1_strategy_rewrite_preserves_untouched_regions redactionRep
    ['a', 'b', 'c', 'd', 'e', 'f'] [witMatch1] (by decide) (by decide)

/-! ### Pipeline deduplication (`pipeline/processor.py`) -/

/-- The `(start, end)` grouping key of `_deduplicate_matches`. -/
def matchKey (m : PIIMatch) : Nat × Nat := (m.start, m.stop)

/-- One iteration of the `by_position` loop:
`if key not in by_position or match.confidence > by_position[key].confidence:
by_position[key] = match`.  The Python dict is modelled as an association
list in insertion order: updating an existing key keeps its position,
inserting a new key appends at the end. -/
def insertDedup (acc : List ((Nat × Nat) × PIIMatch)) (m : PIIMatch) :
    List ((Nat × Nat) × PIIMatch) :=
  match acc with
  | [] => [(matchKey m, m)]
  | (k, ex) :: rest =>
      if k = matchKey m then
        if ex.confidence < m.confidence then (k, m) :: rest
        else (k, ex) :: rest
      else (k, ex) :: insertDedup rest m

/-- `TextProcessor._deduplicate_matches`: fill `by_position`, take its values
(in insertion order) and sort them ascending by `start`. -/
def deduplicateMatches (ms : List PIIMatch) : List PIIMatch :=
  sortByStartAsc ((ms.foldl insertDedup []).map Prod.snd)

theorem insertDedup_cons_update (k : Nat × Nat) (ex m : PIIMatch)
    (rest : List ((Nat × Nat) × PIIMatch)) (hk : k = matchKey m)
    (hc : ex.confidence < m.confidence) :
    insertDedup ((k, ex) :: rest) m = (k, m) :: rest := by
  simp [insertDedup, hk, hc]

theorem insertDedup_cons_keep (k : Nat × Nat) (ex m : PIIMatch)
    (rest : List ((Nat × Nat) × PIIMatch)) (hk : k = matchKey m)
    (hc : ¬ ex.confidence < m.confidence) :
    insertDedup ((k, ex) :: rest) m = (k, ex) :: rest := by
  simp [insertDedup, hk, hc]

theorem insertDedup_cons_skip (k : Nat × Nat) (ex m : PIIMatch)
    (rest : List ((Nat × Nat) × PIIMatch)) (hk : ¬ k = matchKey m) :
    insertDedup ((k, ex) :: rest) m = (k, ex) :: insertDedup rest m := by
  simp [insertDedup, hk]

theorem insertDedup_fst (acc : List ((Nat × Nat) × PIIMatch)) (m : PIIMatch) :
    (insertDedup acc m).map Prod.fst =
      if matchKey m ∈ acc.map Prod.fst then acc.map Prod.fst
      else acc.map Prod.fst ++ [matchKey m] := by
  induction acc with
  | nil => simp [insertDedup]
  | cons p rest ih =>
    obtain ⟨k, ex⟩ := p
    by_cases hk : k = matchKey m
    · subst hk
      by_cases hc : ex.confidence < m.confidence <;>
        simp [insertDedup, hc]
    · simp only [insertDedup, if_neg hk, List.map_cons, ih,
        List.mem_cons]
      have : ¬ matchKey m = k := fun h => hk h.symm
      by_cases hmem : matchKey m ∈ rest.map Prod.fst <;>
        simp [hmem, this]

theorem insertDedup_mem_cases (acc : List ((Nat × Nat) × PIIMatch))
    (m : PIIMatch) (hnd : (acc.map Prod.fst).Nodup) :
    ∀ p ∈ insertDedup acc m,
      (p ∈ acc ∧ p.1 ≠ matchKey m) ∨
      (p ∈ acc ∧ p.1 = matchKey m ∧ m.confidence ≤ p.2.confidence) ∨
      (p = (matchKey m, m) ∧
        ∀ q ∈ acc, q.1 = matchKey m → q.2.confidence < m.confidence) := by
  induction acc with
  | nil =>
    intro p hp
    simp only [insertDedup, List.mem_singleton] at hp
    exact Or.inr (Or.inr ⟨hp, by simp⟩)
  | cons q rest ih =>
    obtain ⟨k, ex⟩ := q
    simp only [List.map_cons, List.nodup_cons] at hnd
    intro p hp
    by_cases hk : k = matchKey m
    · subst hk
      have hrest : ∀ r ∈ rest, r.1 ≠ matchKey m := by
        intro r hr h
        exact hnd.1 (h ▸ List.mem_map_of_mem Prod.fst hr)
      by_cases hc : ex.confidence < m.confidence
      · rw [insertDedup_cons_update _ _ _ _ rfl hc] at hp
        rcases List.mem_cons.mp hp with rfl | hp
        · refine Or.inr (Or.inr ⟨rfl, ?_⟩)
          intro q hq hq1
          rcases List.mem_cons.mp hq with rfl | hq
          · exact hc
          · exact absurd hq1 (hrest q hq)
        · exact Or.inl ⟨List.mem_cons_of_mem _ hp, hrest p hp⟩
      · rw [insertDedup_cons_keep _ _ _ _ rfl hc] at hp
        rcases List.mem_cons.mp hp with rfl | hp
        · exact Or.inr (Or.inl ⟨List.mem_cons_self _ _, rfl, not_lt.mp hc⟩)
        · exact Or.inl ⟨List.mem_cons_of_mem _ hp, hrest p hp⟩
    · rw [insertDedup_cons_skip _ _ _ _ hk] at hp
      rcases List.mem_cons.mp hp with rfl | hp
      · exact Or.inl ⟨List.mem_cons_self _ _, hk⟩
      · rcases ih hnd.2 p hp with h | h | h
        · exact Or.inl ⟨List.mem_cons_of_mem _ h.1, h.2⟩
        · exact Or.inr (Or.inl ⟨List.mem_cons_of_mem _ h.1, h.2⟩)
        · refine Or.inr (Or.inr ⟨h.1, ?_⟩)
          intro q hq hq1
          rcases List.mem_cons.mp hq with rfl | hq
          · exact absurd hq1 hk
          · exact h.2 q hq hq1

theorem insertDedup_mem_of_ne (acc : List ((Nat × Nat) × PIIMatch))
    (m : PIIMatch) (p : (Nat × Nat) × PIIMatch) (hp : p ∈ acc)
    (hne : p.1 ≠ matchKey m) : p ∈ insertDedup acc m := by
  induction acc with
  | nil => cases hp
  | cons q rest ih =>
    obtain ⟨k, ex⟩ := q
    rcases List.mem_cons.mp hp with rfl | hp
    · by_cases hk : k = matchKey m
      · exact absurd hk hne
      · rw [insertDedup_cons_skip _ _ _ _ hk]
        exact List.mem_cons_self _ _
    · by_cases hk : k = matchKey m
      · by_cases hc : ex.confidence < m.confidence
        · rw [insertDedup_cons_update _ _ _ _ hk hc]
          exact List.mem_cons_of_mem _ hp
        · rw [insertDedup_cons_keep _ _ _ _ hk hc]
          exact List.mem_cons_of_mem _ hp
      · rw [insertDedup_cons_skip _ _ _ _ hk]
        exact List.mem_cons_of_mem _ (ih hp)

theorem insertDedup_keymatch (acc : List ((Nat × Nat) × PIIMatch))
    (m : PIIMatch) :
    ∃ p ∈ insertDedup acc m, p.1 = matchKey m := by
  induction acc with
  | nil => exact ⟨(matchKey m, m), by simp [insertDedup]⟩
  | cons q rest ih =>
    obtain ⟨k, ex⟩ := q
    by_cases hk : k = matchKey m
    · by_cases hc : ex.confidence < m.confidence
      · refine ⟨(k, m), ?_, hk⟩
        rw [insertDedup_cons_update _ _ _ _ hk hc]
        exact List.mem_cons_self _ _
      · refine ⟨(k, ex), ?_, hk⟩
        rw [insertDedup_cons_keep _ _ _ _ hk hc]
        exact List.mem_cons_self _ _
    · obtain ⟨p, hp, hp1⟩ := ih
      refine ⟨p, ?_, hp1⟩
      rw [insertDedup_cons_skip _ _ _ _ hk]
      exact List.mem_cons_of_mem _ hp

/-- Invariant of the `by_position` association list after processing the
prefix `pre` of the detector output. -/
def DedupInv (pre : List PIIMatch)
    (acc : List ((Nat × Nat) × PIIMatch)) : Prop :=
  (acc.map Prod.fst).Nodup ∧
  (∀ p ∈ acc, p.1 = matchKey p.2) ∧
  (∀ p ∈ acc, p.2 ∈ pre) ∧
  (∀ p ∈ acc, ∀ x ∈ pre, matchKey x = p.1 →
    x.confidence ≤ p.2.confidence) ∧
  (∀ x ∈ pre, ∃ p ∈ acc, p.1 = matchKey x) ∧
  (∀ p ∈ acc, pre.find?
      (fun x => decide (matchKey x = p.1 ∧
        x.confidence = p.2.confidence)) = some p.2)

theorem dedupInv_nil : DedupInv [] [] := by
  refine ⟨List.nodup_nil, ?_, ?_, ?_, ?_, ?_⟩ <;> simp

theorem dedupInv_insert (pre : List PIIMatch)
    (acc : List ((Nat × Nat) × PIIMatch)) (m : PIIMatch)
    (h : DedupInv pre acc) : DedupInv (pre ++ [m]) (insertDedup acc m) := by
  obtain ⟨h1, h2, h3, h4, h5, h6⟩ := h
  refine ⟨?_, ?_, ?_, ?_, ?_, ?_⟩
  · rw [insertDedup_fst]
    split
    · exact h1
    · rename_i hnot
      refine List.nodup_append.mpr ⟨h1, List.nodup_singleton _, ?_⟩
      intro a ha hb
      rw [List.mem_singleton] at hb
      exact hnot (hb ▸ ha)
  · intro p hp
    rcases insertDedup_mem_cases acc m h1 p hp with
      ⟨hpa, _⟩ | ⟨hpa, _, _⟩ | ⟨rfl, _⟩
    · exact h2 p hpa
    · exact h2 p hpa
    · rfl
  · intro p hp
    rcases insertDedup_mem_cases acc m h1 p hp with
      ⟨hpa, _⟩ | ⟨hpa, _, _⟩ | ⟨rfl, _⟩
    · exact List.mem_append_left _ (h3 p hpa)
    · exact List.mem_append_left _ (h3 p hpa)
    · exact List.mem_append_right _ (List.mem_singleton_self m)
  · intro p hp x hx hkey
    rcases List.mem_append.mp hx with hx | hx
    · rcases insertDedup_mem_cases acc m h1 p hp with
        ⟨hpa, _⟩ | ⟨hpa, _, _⟩ | ⟨rfl, hall⟩
      · exact h4 p hpa x hx hkey
      · exact h4 p hpa x hx hkey
      · obtain ⟨q, hq, hq1⟩ := h5 x hx
        have hxq := h4 q hq x hx hq1.symm
        have hlt := hall q hq (hq1.trans hkey)
        exact le_of_lt (lt_of_le_of_lt hxq hlt)
    · rw [List.mem_singleton] at hx
      rw [hx] at hkey ⊢
      rcases insertDedup_mem_cases acc m h1 p hp with
        ⟨_, hne⟩ | ⟨_, _, hge⟩ | ⟨rfl, _⟩
      · exact absurd hkey.symm hne
      · exact hge
      · exact le_refl _
  · intro x hx
    rcases List.mem_append.mp hx with hx | hx
    · obtain ⟨p, hp, hp1⟩ := h5 x hx
      by_cases hne : p.1 = matchKey m
      · obtain ⟨p2, hp2, hp21⟩ := insertDedup_keymatch acc m
        exact ⟨p2, hp2, hp21.trans (hne.symm.trans hp1)⟩
      · exact ⟨p, insertDedup_mem_of_ne acc m p hp hne, hp1⟩
    · rw [List.mem_singleton] at hx
      rw [hx]
      exact insertDedup_keymatch acc m
  · intro p hp
    rcases insertDedup_mem_cases acc m h1 p hp with
      ⟨hpa, _⟩ | ⟨hpa, _, _⟩ | ⟨rfl, hall⟩
    · rw [List.find?_append, h6 p hpa]
      rfl
    · rw [List.find?_append, h6 p hpa]
      rfl
    · rw [List.find?_append]
      have hnone : pre.find?
          (fun x => decide (matchKey x = (matchKey m, m).1 ∧
            x.confidence = (matchKey m, m).2.confidence)) = none := by
        rw [List.find?_eq_none]
        intro x hx hpx
        rw [decide_eq_true_iff] at hpx
        obtain ⟨hk, hcf⟩ := hpx
        obtain ⟨q, hq, hq1⟩ := h5 x hx
        have hxq := h4 q hq x hx hq1.symm
        have hlt := hall q hq (hq1.trans hk)
        rw [hcf] at hxq
        exact absurd hxq (not_le.mpr hlt)
      rw [hnone]
      simp [List.find?]

theorem dedupInv_foldl :
    ∀ (ms pre : List PIIMatch) (acc : List ((Nat × Nat) × PIIMatch)),
      DedupInv pre acc → DedupInv (pre ++ ms) (ms.foldl insertDedup acc)
  | [], pre, acc, h => by simpa using h
  | m :: rest, pre, acc, h => by
    have := dedupInv_foldl rest (pre ++ [m]) (insertDedup acc m)
      (dedupInv_insert pre acc m h)
    simpa using this

theorem dedupInv_full (ms : List PIIMatch) :
    DedupInv ms (ms.foldl insertDedup []) := by
  simpa using dedupInv_foldl ms [] [] dedupInv_nil

/-- C2: `_deduplicate_matches` returns matches sorted ascending by `start`,
drawn from the input, with pairwise distinct `(start, end)` keys covering
every input key; each survivor has the maximum confidence of its key group,
and it is the first input match attaining that confidence (first-seen
tie-break, since an existing entry is only replaced on strictly greater
confidence). -/
theorem C2_deduplicate_matches_spec (ms : List PIIMatch) :
    List.Sorted startLe (deduplicateMatches ms) ∧
    (∀ m' ∈ deduplicateMatches ms, m' ∈ ms) ∧
    ((deduplicateMatches ms).map matchKey).Nodup ∧
    (∀ m ∈ ms, ∃ m' ∈ deduplicateMatches ms, matchKey m' = matchKey m) ∧
    (∀ m' ∈ deduplicateMatches ms, ∀ m ∈ ms,
      matchKey m = matchKey m' → m.confidence ≤ m'.confidence) ∧
    (∀ m' ∈ deduplicateMatches ms, ms.find?
        (fun x => decide (matchKey x = matchKey m' ∧
          x.confidence = m'.confidence)) = some m') := by
  obtain ⟨h1, h2, h3, h4, h5, h6⟩ := dedupInv_full ms
  have hperm : List.Perm (deduplicateMatches ms)
      ((ms.foldl insertDedup []).map Prod.snd) :=
    List.perm_insertionSort startLe _
  have hmem : ∀ m' ∈ deduplicateMatches ms,
      ∃ p ∈ ms.foldl insertDedup [], p.2 = m' := by
    intro m' hm'
    have := hperm.mem_iff.mp hm'
    obtain ⟨p, hp, hpe⟩ := List.mem_map.mp this
    exact ⟨p, hp, hpe⟩
  refine ⟨List.sorted_insertionSort startLe _, ?_, ?_, ?_, ?_, ?_⟩
  · intro m' hm'
    obtain ⟨p, hp, rfl⟩ := hmem m' hm'
    exact h3 p hp
  · have hmapeq : ((ms.foldl insertDedup []).map Prod.snd).map matchKey =
        (ms.foldl insertDedup []).map Prod.fst := by
      rw [List.map_map]
      exact List.map_congr_left (fun p hp => (h2 p hp).symm)
    have := (hperm.map matchKey).nodup_iff
    rw [this, hmapeq]
    exact h1
  · intro m hm
    obtain ⟨p, hp, hp1⟩ := h5 m hm
    refine ⟨p.2, hperm.mem_iff.mpr (List.mem_map_of_mem Prod.snd hp), ?_⟩
    rw [← h2 p hp]
    exact hp1
  · intro m' hm' m hm hkey
    obtain ⟨p, hp, rfl⟩ := hmem m' hm'
    exact h4 p hp m hm (hkey.trans (h2 p hp).symm)
  · intro m' hm'
    obtain ⟨p, hp, rfl⟩ := hmem m' hm'
    have := h6 p hp
    rw [← h2 p hp]
    exact this

/-- Lower-confidence duplicate used by the C2 witness. -/
def dupMatch1 : PIIMatch := ⟨.EMAIL, ['x'], 0, 3, mkRat 1 2, "a"⟩

/-- Higher-confidence duplicate (same key) used by the C2 witness. -/
def dupMatch2 : PIIMatch := ⟨.NAME, ['x'], 0, 3, mkRat 9 10, "b"⟩

/-- Witness for C2 at a concrete input: of two matches with identical
`(start, end)` and confidences `0.5` and `0.9`, exactly the higher one
survives, and the general theorem instantiates there. -/
theorem C2_witness :
    deduplicateMatches [dupMatch1, dupMatch2] = [dupMatch2] ∧
    (∀ m' ∈ deduplicateMatches [dupMatch1, dupMatch2],
      ∀ m ∈ [dupMatch1, dupMatch2],
        matchKey m = matchKey m' → m.confidence ≤ m'.confidence) :=
  ⟨by decide, (C2_deduplicate_matches_spec [dupMatch1, dupMatch2]).2.2.2.2.1⟩

/-! ### LLM validator (`detectors/llm_validator.py`) -/

/-- `ValidationResult` dataclass. -/
structure ValidationResult where
  is_pii : Bool
  confidence : ℚ
  reason : String
deriving DecidableEq, Repr

/-- `LLMValidator.validate_low_confidence`.  The Anthropic client is opaque
network I/O: it is abstracted by the flag `available` (the value of
`self.is_available`) and by the function `llm`, which stands for the batched
API path taken when the client is available (sentence grouping,
`_validate_batch`, …).  When the client is unavailable the function is fully
concrete: high-confidence matches are auto-approved and low-confidence
matches fall back to `is_pii=true` with reason `"LLM validation
unavailable"`. -/
def validateLowConfidence (available : Bool)
    (llm : List PIIMatch → List (PIIMatch × ValidationResult))
    (ms : List PIIMatch) (threshold : ℚ) :
    List (PIIMatch × ValidationResult) :=
  let highConf := ms.filter (fun m => threshold ≤ m.confidence)
  let lowConf := ms.filter (fun m => m.confidence < threshold)
  let results := highConf.map (fun m =>
    (m, (⟨true, m.confidence, "High confidence - auto-approved"⟩ :
      ValidationResult)))
  if lowConf = [] then results
  else if available = false then
    results ++ lowConf.map (fun m =>
      (m, (⟨true, m.confidence, "LLM validation unavailable"⟩ :
        ValidationResult)))
  else results ++ llm lowConf

theorem validateLowConfidence_unavailable
    (llm : List PIIMatch → List (PIIMatch × ValidationResult))
    (ms : List PIIMatch) (threshold : ℚ) :
    validateLowConfidence false llm ms threshold =
      (ms.filter (fun m => threshold ≤ m.confidence)).map (fun m =>
        (m, (⟨true, m.confidence, "High confidence - auto-approved"⟩ :
          ValidationResult))) ++
      (ms.filter (fun m => m.confidence < threshold)).map (fun m =>
        (m, (⟨true, m.confidence, "LLM validation unavailable"⟩ :
          ValidationResult))) := by
  by_cases hemp : ms.filter (fun m => m.confidence < threshold) = []
  · simp only [validateLowConfidence, hemp, if_pos, List.map_nil,
      List.append_nil, if_true]
  · simp only [validateLowConfidence, hemp, if_neg, if_false,
      reduceIte]

theorem filter_high_low_perm (ms : List PIIMatch) (threshold : ℚ) :
    List.Perm
      (ms.filter (fun m => threshold ≤ m.confidence) ++
        ms.filter (fun m => m.confidence < threshold)) ms := by
  have hcong : ms.filter (fun m => m.confidence < threshold) =
      ms.filter (fun m => ! decide (threshold ≤ m.confidence)) := by
    apply List.filter_congr
    intro m _
    by_cases h : threshold ≤ m.confidence
    · have h2 : ¬ m.confidence < threshold := not_lt.mpr h
      simp [h, h2]
    · have h2 : m.confidence < threshold := not_le.mp h
      simp [h, h2]
  rw [hcong]
  exact List.filter_append_perm _ ms

/-- C4: with the LLM client unavailable, `validate_low_confidence` raises
nothing (it is total), returns exactly one `(match, result)` pair per input
match (each input match appears exactly once), every result has
`is_pii = true`, and every match at or above the threshold is auto-approved
with reason `"High confidence - auto-approved"` and its own confidence. -/
theorem C4_llm_unavailable_fallback
    (llm : List PIIMatch → List (PIIMatch × ValidationResult))
    (ms : List PIIMatch) (threshold : ℚ) :
    (validateLowConfidence false llm ms threshold).length = ms.length ∧
    List.Perm ((validateLowConfidence false llm ms threshold).map Prod.fst)
      ms ∧
    (∀ p ∈ validateLowConfidence false llm ms threshold,
      p.2.is_pii = true) ∧
    (∀ p ∈ validateLowConfidence false llm ms threshold,
      threshold ≤ p.1.confidence →
        p.2.reason = "High confidence - auto-approved" ∧
        p.2.confidence = p.1.confidence) := by
  rw [validateLowConfidence_unavailable]
  have hmapfst :
      ((ms.filter (fun m => threshold ≤ m.confidence)).map (fun m =>
        (m, (⟨true, m.confidence, "High confidence - auto-approved"⟩ :
          ValidationResult))) ++
      (ms.filter (fun m => m.confidence < threshold)).map (fun m =>
        (m, (⟨true, m.confidence, "LLM validation unavailable"⟩ :
          ValidationResult)))).map Prod.fst =
      ms.filter (fun m => threshold ≤ m.confidence) ++
        ms.filter (fun m => m.confidence < threshold) := by
    have hid : ∀ (g : PIIMatch → ValidationResult) (l : List PIIMatch),
        (l.map (fun m => (m, g m))).map Prod.fst = l := by
      intro g l
      induction l with
      | nil => rfl
      | cons a l ih => simp [ih]
    rw [List.map_append, hid, hid]
  have hperm := filter_high_low_perm ms threshold
  refine ⟨?_, ?_, ?_, ?_⟩
  · have := congrArg List.length hmapfst
    simp only [List.length_map] at this
    rw [this]
    exact hperm.length_eq
  · rw [hmapfst]
    exact hperm
  · intro p hp
    rcases List.mem_append.mp hp with hp | hp <;>
      · obtain ⟨m, _, rfl⟩ := List.mem_map.mp hp
        rfl
  · intro p hp hth
    rcases List.mem_append.mp hp with hp | hp
    · obtain ⟨m, _, rfl⟩ := List.mem_map.mp hp
      exact ⟨rfl, rfl⟩
    · obtain ⟨m, hm, rfl⟩ := List.mem_map.mp hp
      have := List.of_mem_filter hm
      rw [decide_eq_true_iff] at this
      exact absurd hth (not_le.mpr this)

/-- High-confidence match for the C4 witness. -/
def llmHigh : PIIMatch := ⟨.EMAIL, ['x'], 0, 1, mkRat 95 100, "email"⟩

/-- Low-confidence match for the C4 witness. -/
def llmLow : PIIMatch := ⟨.NAME, ['y'], 2, 3, mkRat 1 2, "ner"⟩

/-- Witness for C4 at a concrete input: one high- and one low-confidence
match, threshold `0.9`, client unavailable. -/
theorem C4_witness :
    (validateLowConfidence false (fun _ => []) [llmHigh, llmLow]
        (mkRat 9 10)).length = 2 ∧
    (∀ p ∈ validateLowConfidence false (fun _ => []) [llmHigh, llmLow]
        (mkRat 9 10), p.2.is_pii = true) :=
  ⟨by rw [(C4_llm_unavailable_fallback (fun _ => []) [llmHigh, llmLow]
      (mkRat 9 10)).1]; rfl,
   (C4_llm_unavailable_fallback (fun _ => []) [llmHigh, llmLow]
      (mkRat 9 10)).2.2.1⟩

/-- Python `str.lower()` (character-wise lowering). -/
def lowerChars (s : List Char) : List Char := s.map Char.toLower

/-- One entry of the parsed JSON array in an LLM batch response.  The Python
code reads fields defensively: `r.get("text", "")` (so a missing text behaves
as the empty string), `r.get("is_pii", True)`, `r.get("confidence",
match.confidence)` and `r.get("reason", "No reason provided")`; the three
defaulted fields are modelled as `Option`s. -/
structure LLMEntry where
  text : List Char
  is_pii : Option Bool
  confidence : Option ℚ
  reason : Option String
deriving DecidableEq, Repr

/-- The `ValidationResult` built from a response entry for a match. -/
def entryResult (m : PIIMatch) (r : LLMEntry) : ValidationResult :=
  ⟨r.is_pii.getD true, r.confidence.getD m.confidence,
    r.reason.getD "No reason provided"⟩

/-- The fallback `ValidationResult` for a match with no response entry. -/
def fallbackResult (m : PIIMatch) : ValidationResult :=
  ⟨true, m.confidence, "Match not in LLM response"⟩

/-- The `next(...)` generator in `_parse_batch_response`: the first response
entry whose lowered text equals `t` and whose lowered text has not been
consumed yet (`matched_texts` tracks *texts*, not entries). -/
def findEntry (rd : List LLMEntry) (consumed : List (List Char))
    (t : List Char) : Option LLMEntry :=
  rd.find? (fun r => decide (lowerChars r.text = t) &&
    ! decide (lowerChars r.text ∈ consumed))

/-- The match loop of `_parse_batch_response`, carrying `matched_texts`. -/
def parseBatchGo (rd : List LLMEntry) :
    List PIIMatch → List (List Char) → List (PIIMatch × ValidationResult)
  | [], _ => []
  | m :: rest, consumed =>
      match findEntry rd consumed (lowerChars m.text) with
      | some r => (m, entryResult m r) ::
          parseBatchGo rd rest (lowerChars r.text :: consumed)
      | none => (m, fallbackResult m) :: parseBatchGo rd rest consumed

/-- `LLMValidator._parse_batch_response` after successful JSON parsing: pair
each input match, in order, with the first unconsumed response entry of equal
case-insensitive text, or with the fallback result.  (The markdown-stripping
preamble and the `json.loads` failure path, which returns a per-match
"Failed to parse LLM response" fallback, are upstream of this loop.) -/
def parseBatchResponse (rd : List LLMEntry) (ms : List PIIMatch) :
    List (PIIMatch × ValidationResult) :=
  parseBatchGo rd ms []

theorem parseBatchGo_fst (rd : List LLMEntry) :
    ∀ (ms : List PIIMatch) (consumed : List (List Char)),
      (parseBatchGo rd ms consumed).map Prod.fst = ms
  | [], _ => rfl
  | m :: rest, consumed => by
    unfold parseBatchGo
    cases findEntry rd consumed (lowerChars m.text) <;>
      simp [parseBatchGo_fst rd rest]

theorem findEntry_none_mono (rd : List LLMEntry)
    (consumed consumed' : List (List Char)) (t : List Char)
    (hsub : ∀ x ∈ consumed, x ∈ consumed')
    (h : findEntry rd consumed t = none) :
    findEntry rd consumed' t = none := by
  rw [findEntry, List.find?_eq_none] at h ⊢
  intro r hr
  have := h r hr
  intro hp
  apply this
  simp only [Bool.and_eq_true, decide_eq_true_iff, Bool.not_eq_true',
    decide_eq_false_iff_not] at hp ⊢
  exact ⟨hp.1, fun hc => hp.2 (hsub _ hc)⟩

theorem findEntry_none_after (rd : List LLMEntry)
    (consumed : List (List Char)) (t : List Char) (r : LLMEntry)
    (hr : lowerChars r.text = t) :
    findEntry rd (lowerChars r.text :: consumed) t = none := by
  rw [findEntry, List.find?_eq_none]
  intro x _ hp
  simp only [Bool.and_eq_true, decide_eq_true_iff, Bool.not_eq_true',
    decide_eq_false_iff_not] at hp
  exact hp.2 (by rw [hp.1, ← hr]; exact List.mem_cons_self _ _)

theorem parseBatchGo_dead (rd : List LLMEntry) :
    ∀ (ms : List PIIMatch) (consumed : List (List Char)) (j : Nat)
      (mj : PIIMatch), ms[j]? = some mj →
      findEntry rd consumed (lowerChars mj.text) = none →
      (parseBatchGo rd ms consumed)[j]? = some (mj, fallbackResult mj)
  | [], _, j, _, hj, _ => by simp at hj
  | m :: rest, consumed, 0, mj, hj, hdead => by
    simp only [List.getElem?_cons_zero, Option.some.injEq] at hj
    subst hj
    unfold parseBatchGo
    rw [hdead]
    simp
  | m :: rest, consumed, j + 1, mj, hj, hdead => by
    simp only [List.getElem?_cons_succ] at hj
    unfold parseBatchGo
    cases hfe : findEntry rd consumed (lowerChars m.text) with
    | some r =>
      have hmono := findEntry_none_mono rd consumed
        (lowerChars r.text :: consumed) (lowerChars mj.text)
        (fun x hx => List.mem_cons_of_mem _ hx) hdead
      simpa using parseBatchGo_dead rd rest _ j mj hj hmono
    | none =>
      simpa using parseBatchGo_dead rd rest consumed j mj hj hdead

theorem parseBatchGo_dup_fallback (rd : List LLMEntry) :
    ∀ (ms : List PIIMatch) (consumed : List (List Char)) (i j : Nat)
      (mi mj : PIIMatch), i < j → ms[i]? = some mi → ms[j]? = some mj →
      lowerChars mi.text = lowerChars mj.text →
      (parseBatchGo rd ms consumed)[j]? = some (mj, fallbackResult mj)
  | [], _, i, j, mi, _, _, hi, _, _ => by simp at hi
  | m :: rest, consumed, 0, j, mi, mj, hij, hi, hj, htxt => by
    simp only [List.getElem?_cons_zero, Option.some.injEq] at hi
    subst hi
    obtain ⟨j', rfl⟩ : ∃ j', j = j' + 1 := ⟨j - 1, by omega⟩
    simp only [List.getElem?_cons_succ] at hj
    unfold parseBatchGo
    cases hfe : findEntry rd consumed (lowerChars m.text) with
    | some r =>
      have hrt : lowerChars r.text = lowerChars m.text := by
        have := List.find?_some hfe
        simp only [Bool.and_eq_true, decide_eq_true_iff] at this
        exact this.1
      have hdead : findEntry rd (lowerChars r.text :: consumed)
          (lowerChars mj.text) = none := by
        rw [← htxt]
        exact findEntry_none_after rd consumed _ r hrt
      simpa using parseBatchGo_dead rd rest _ j' mj hj hdead
    | none =>
      have hdead : findEntry rd consumed (lowerChars mj.text) = none := by
        rw [← htxt]
        exact hfe
      simpa using parseBatchGo_dead rd rest consumed j' mj hj hdead
  | m :: rest, consumed, i + 1, j, mi, mj, hij, hi, hj, htxt => by
    obtain ⟨j', rfl⟩ : ∃ j', j = j' + 1 := ⟨j - 1, by omega⟩
    simp only [List.getElem?_cons_succ] at hi hj
    unfold parseBatchGo
    cases hfe : findEntry rd consumed (lowerChars m.text) with
    | some r =>
      simpa using parseBatchGo_dup_fallback rd rest _ i j' mi mj
        (by omega) hi hj htxt
    | none =>
      simpa using parseBatchGo_dup_fallback rd rest consumed i j' mi mj
        (by omega) hi hj htxt

theorem parseBatchGo_sources (rd : List LLMEntry) :
    ∀ (ms : List PIIMatch) (consumed : List (List Char))
      (p : PIIMatch × ValidationResult), p ∈ parseBatchGo rd ms consumed →
      p.2 = fallbackResult p.1 ∨
      ∃ r ∈ rd, lowerChars r.text = lowerChars p.1.text ∧
        p.2 = entryResult p.1 r
  | [], _, p, hp => by simp [parseBatchGo] at hp
  | m :: rest, consumed, p, hp => by
    unfold parseBatchGo at hp
    cases hfe : findEntry rd consumed (lowerChars m.text) with
    | some r =>
      rw [hfe] at hp
      rcases List.mem_cons.mp hp with rfl | hp
      · refine Or.inr ⟨r, List.mem_of_find?_eq_some hfe, ?_, rfl⟩
        have := List.find?_some hfe
        simp only [Bool.and_eq_true, decide_eq_true_iff] at this
        exact this.1
      · exact parseBatchGo_sources rd rest _ p hp
    | none =>
      rw [hfe] at hp
      rcases List.mem_cons.mp hp with rfl | hp
      · exact Or.inl rfl
      · exact parseBatchGo_sources rd rest consumed p hp

/-- C3 (amended): each input candidate is paired in order with a response
entry found by case-insensitive exact text equality, each response entry is
consumed at most once (one LLM verdict is never assigned to two different
matches), and every candidate with no corresponding entry receives the
fallback `ValidationResult` — no candidate is dropped.  However, consumption
is tracked per *text*, not per entry: when two input candidates share the
same case-insensitive text, every candidate after the first receives the
fallback even when a second matching response entry exists. -/
theorem C3_parse_batch_response_pairing (rd : List LLMEntry)
    (ms : List PIIMatch) :
    ((parseBatchResponse rd ms).map Prod.fst = ms) ∧
    (∀ p ∈ parseBatchResponse rd ms,
      p.2 = fallbackResult p.1 ∨
      ∃ r ∈ rd, lowerChars r.text = lowerChars p.1.text ∧
        p.2 = entryResult p.1 r) ∧
    (∀ (i j : Nat) (mi mj : PIIMatch), i < j →
      ms[i]? = some mi → ms[j]? = some mj →
      lowerChars mi.text = lowerChars mj.text →
      (parseBatchResponse rd ms)[j]? = some (mj, fallbackResult mj)) :=
  ⟨parseBatchGo_fst rd ms [],
   fun p hp => parseBatchGo_sources rd ms [] p hp,
   fun i j mi mj hij hi hj htxt =>
     parseBatchGo_dup_fallback rd ms [] i j mi mj hij hi hj htxt⟩

/-- Response entry (text `foo`, `is_pii = false`) for the C3 counterexample:
two copies of it are the "two such entries". -/
def fooEntry : LLMEntry :=
  ⟨['f', 'o', 'o'], some false, some (mkRat 1 10), some "Company name"⟩

/-- First candidate with text `foo`. -/
def fooMatch1 : PIIMatch := ⟨.NAME, ['f', 'o', 'o'], 0, 3, mkRat 1 2, "ner"⟩

/-- Second candidate with the same text `foo` at a different span. -/
def fooMatch2 : PIIMatch := ⟨.NAME, ['f', 'o', 'o'], 10, 13, mkRat 1 2, "ner"⟩

/-- C3 as stated is false: with two candidates of the same text and two
matching response entries, the second candidate does *not* receive the second
verdict of the second entry — it receives the fallback result, because consumption is
tracked by lowered text. -/
theorem C3_claim_counterexample :
    parseBatchResponse [fooEntry, fooEntry] [fooMatch1, fooMatch2] =
      [(fooMatch1, entryResult fooMatch1 fooEntry),
       (fooMatch2, fallbackResult fooMatch2)] ∧
    (parseBatchResponse [fooEntry, fooEntry] [fooMatch1, fooMatch2])[1]? ≠
      some (fooMatch2, entryResult fooMatch2 fooEntry) := by
  decide

/-- Witness for C3 at a concrete input: a candidate with a matching entry and
a candidate with none. -/
theorem C3_witness :
    ((parseBatchResponse [fooEntry] [fooMatch1, fooMatch2]).map Prod.fst =
      [fooMatch1, fooMatch2]) ∧
    (parseBatchResponse [fooEntry] [fooMatch1, fooMatch2])[1]? =
      some (fooMatch2, fallbackResult fooMatch2) :=
  ⟨(C3_parse_batch_response_pairing [fooEntry] [fooMatch1, fooMatch2]).1,
   (C3_parse_batch_response_pairing [fooEntry] [fooMatch1, fooMatch2]).2.2
     0 1 fooMatch1 fooMatch2 (by decide) (by decide) (by decide) (by decide)⟩

/-! ### Credit card detector (`detectors/credit_card.py`) -/

/-- One doubled-digit step of `_luhn_check`:
`digit *= 2; if digit > 9: digit -= 9`. -/
def luhnDouble (d : Nat) : Nat := if d * 2 > 9 then d * 2 - 9 else d * 2

/-- The loop of `_luhn_check` over `reverse_digits`, with `i` the enumeration
index: double every second digit from the right. -/
def luhnSumRev : Nat → List Nat → Nat
  | _, [] => 0
  | i, d :: ds => (if i % 2 = 1 then luhnDouble d else d) + luhnSumRev (i + 1) ds

/-- `CreditCardDetector._luhn_check` on the digit values of the candidate. -/
def luhnCheck (digits : List Nat) : Bool :=
  luhnSumRev 0 digits.reverse % 10 == 0

/-- `CreditCardDetector.detect` applied to one regex candidate: `digits` are
the digit values of the candidate after removing separators, `txt` the raw matched
text and `[s, e)` its span.  Candidates outside length 13–19 or failing Luhn
are skipped (not emitted); otherwise a CREDIT_CARD match with confidence 1.0
is emitted.  On a text that is a bare digit string of length 13–19 the
pattern produces exactly one candidate, the whole string. -/
def creditCardDetectCandidate (txt : List Char) (s e : Nat)
    (digits : List Nat) : List PIIMatch :=
  if digits.length < 13 ∨ 19 < digits.length then []
  else if luhnCheck digits then
    [⟨.CREDIT_CARD, txt, s, e, 1, "credit_card"⟩]
  else []

/-- The contribution of a digit at enumeration parity `p` to the Luhn sum. -/
def luhnContrib (p : Nat) (d : Nat) : Nat :=
  if p % 2 = 1 then luhnDouble d else d

theorem luhnContrib_lt (p d : Nat) (hd : d < 10) : luhnContrib p d < 10 := by
  unfold luhnContrib luhnDouble
  split <;> [skip; omega]
  split <;> omega

theorem luhnContrib_inj (p : Nat) :
    ∀ d, d < 10 → ∀ e, e < 10 → luhnContrib p d = luhnContrib p e →
      d = e := by
  unfold luhnContrib
  split
  · have : ∀ d, d < 10 → ∀ e, e < 10 → luhnDouble d = luhnDouble e →
        d = e := by decide
    exact this
  · intro d _ e _ h
    exact h

theorem luhnSumRev_set :
    ∀ (l : List Nat) (j : Nat) (hj : j < l.length) (d : Nat) (i : Nat),
      luhnSumRev i (l.set j d) + luhnContrib (i + j) (l.get ⟨j, hj⟩) =
        luhnSumRev i l + luhnContrib (i + j) d
  | [], j, hj, _, _ => by simp at hj
  | a :: t, 0, _, d, i => by
    simp only [List.set_cons_zero, luhnSumRev, List.get]
    show luhnContrib i d + luhnSumRev (i + 1) t + luhnContrib (i + 0) a =
      luhnContrib i a + luhnSumRev (i + 1) t + luhnContrib (i + 0) d
    simp only [Nat.add_zero]
    omega
  | a :: t, j + 1, hj, d, i => by
    simp only [List.set_cons_succ, luhnSumRev, List.get]
    have ih := luhnSumRev_set t j (by simpa using Nat.lt_of_succ_lt_succ hj)
      d (i + 1)
    show luhnContrib i a + luhnSumRev (i + 1) (t.set j d) +
        luhnContrib (i + (j + 1)) (t.get ⟨j, _⟩) = _
    have harr : i + (j + 1) = (i + 1) + j := by omega
    rw [harr]
    show luhnContrib i a + luhnSumRev (i + 1) (t.set j d) +
        luhnContrib ((i + 1) + j) (t.get ⟨j, _⟩) =
      luhnContrib i a + luhnSumRev (i + 1) t + luhnContrib ((i + 1) + j) d
    omega

theorem reverse_set_eq (l : List Nat) (j : Nat) (hj : j < l.length)
    (d : Nat) :
    (l.set j d).reverse = l.reverse.set (l.length - 1 - j) d := by
  apply List.ext_getElem
  · simp
  · intro i h1 h2
    simp only [List.length_reverse, List.length_set] at h1 h2
    rw [List.getElem_reverse, List.getElem_set, List.getElem_set,
      List.getElem_reverse]
    simp only [List.length_set]
    by_cases hc : j = l.length - 1 - i
    · rw [if_pos hc, if_pos (by omega)]
    · rw [if_neg hc, if_neg (by omega)]

theorem luhnCheck_set_false (digits : List Nat) (i : Nat)
    (hi : i < digits.length) (d' : Nat)
    (hdig : ∀ d ∈ digits, d < 10) (hd' : d' < 10)
    (hne : d' ≠ digits.get ⟨i, hi⟩)
    (hluhn : luhnCheck digits = true) :
    luhnCheck (digits.set i d') = false := by
  set j := digits.length - 1 - i with hjdef
  have hjlt : j < digits.reverse.length := by
    simp only [List.length_reverse]
    omega
  have hrev : (digits.set i d').reverse = digits.reverse.set j d' :=
    reverse_set_eq digits i hi d'
  have hgetrev : digits.reverse.get ⟨j, hjlt⟩ = digits.get ⟨i, hi⟩ := by
    show digits.reverse[j] = digits[i]
    rw [List.getElem_reverse]
    congr 1
    omega
  have hkey := luhnSumRev_set digits.reverse j
    (by simpa using hjlt) d' 0
  rw [hgetrev] at hkey
  simp only [Nat.zero_add] at hkey
  unfold luhnCheck at hluhn ⊢
  rw [hrev]
  simp only [beq_iff_eq] at hluhn
  rw [beq_eq_false_iff_ne]
  intro hcontra
  have hclt1 := luhnContrib_lt j (digits.get ⟨i, hi⟩)
    (hdig _ (digits.get_mem _ _))
  have hclt2 := luhnContrib_lt j d' hd'
  have hceq : luhnContrib j (digits.get ⟨i, hi⟩) = luhnContrib j d' := by
    omega
  exact hne (luhnContrib_inj j d' hd' (digits.get ⟨i, hi⟩)
    (hdig _ (digits.get_mem _ _)) hceq.symm)

/-- C5: a candidate whose digits (length 13–19) satisfy the Luhn checksum is
emitted as a CREDIT_CARD match with confidence 1.0, and changing exactly one
digit of it to any different digit makes the detector emit zero matches: the
corrupted candidate fails Luhn and is discarded, not emitted with lower
confidence. -/
theorem C5_credit_card_luhn (txt : List Char) (s e : Nat)
    (digits : List Nat) (hlen : 13 ≤ digits.length ∧ digits.length ≤ 19)
    (hdig : ∀ d ∈ digits, d < 10) (hluhn : luhnCheck digits = true) :
    creditCardDetectCandidate txt s e digits =
      [⟨.CREDIT_CARD, txt, s, e, 1, "credit_card"⟩] ∧
    ∀ (i : Nat) (hi : i < digits.length) (d' : Nat), d' < 10 →
      d' ≠ digits.get ⟨i, hi⟩ →
      creditCardDetectCandidate txt s e (digits.set i d') = [] := by
  constructor
  · unfold creditCardDetectCandidate
    rw [if_neg (by omega), if_pos hluhn]
  · intro i hi d' hd' hne
    unfold creditCardDetectCandidate
    rw [if_neg (by simp only [List.length_set]; omega),
      luhnCheck_set_false digits i hi d' hdig hd' hne hluhn]
    simp

/-- The sixteen digits of the valid Visa test number 4111111111111111. -/
def visaDigits : List Nat := [4, 1, 1, 1, 1, 1, 1, 1, 1, 1, 1, 1, 1, 1, 1, 1]

/-- Witness for C5 at a concrete input: 4111111111111111 passes Luhn and is
emitted with confidence 1.0; changing its first digit to 5 yields zero
matches. -/
theorem C5_witness :
    creditCardDetectCandidate ['4'] 0 16 visaDigits =
      [⟨.CREDIT_CARD, ['4'], 0, 16, 1, "credit_card"⟩] ∧
    creditCardDetectCandidate ['4'] 0 16 (visaDigits.set 0 5) = [] :=
  ⟨(C5_credit_card_luhn ['4'] 0 16 visaDigits (by decide) (by decide)
      (by decide)).1,
   (C5_credit_card_luhn ['4'] 0 16 visaDigits (by decide) (by decide)
      (by decide)).2 0 (by decide) 5 (by decide) (by decide)⟩

/-! ### IBAN detector (`detectors/iban.py`) -/

/-- A character of an IBAN candidate after uppercasing: `[A-Z0-9]`. -/
inductive IChar where
  | letter : Fin 26 → IChar
  | digit : Fin 10 → IChar
deriving DecidableEq, Repr

/-- Building the numeric string of `_validate_checksum` and reading it as an
integer, fused: a digit appends one decimal digit, a letter appends its
two-digit value `ord(char) - 55`, i.e. `A=10 … Z=35`. -/
def ibanNumAcc : Nat → List IChar → Nat
  | acc, [] => acc
  | acc, .digit d :: r => ibanNumAcc (acc * 10 + d.val) r
  | acc, .letter v :: r => ibanNumAcc (acc * 100 + (10 + v.val)) r

/-- `int(numeric)` for a character list. -/
def ibanNumeric (l : List IChar) : Nat := ibanNumAcc 0 l

/-- Number of decimal digits contributed by each character. -/
def ibanDigLen : List IChar → Nat
  | [] => 0
  | .digit _ :: r => 1 + ibanDigLen r
  | .letter _ :: r => 2 + ibanDigLen r

/-- `IBANDetector._validate_checksum`: move the first 4 characters to the
end, convert to the numeric value, and test `mod 97 == 1`. -/
def ibanChecksum (iban : List IChar) : Bool :=
  ibanNumeric (iban.drop 4 ++ iban.take 4) % 97 == 1

/-- The country code `iban[:2]` when the candidate starts with two letters
(the detector pattern guarantees it does). -/
def ibanCountry : List IChar → Option (Fin 26 × Fin 26)
  | .letter a :: .letter b :: _ => some (a, b)
  | _ => none

/-- The `IBAN_LENGTHS` table, countries encoded as letter indices (`A = 0`):
DE, AT, CH, FR, NL, BE, ES, IT, GB, PL. -/
def ibanLengths : List ((Fin 26 × Fin 26) × Nat) :=
  [((3, 4), 22), ((0, 19), 20), ((2, 7), 21), ((5, 17), 27),
   ((13, 11), 18), ((1, 4), 16), ((4, 18), 24), ((8, 19), 27),
   ((6, 1), 22), ((15, 11), 28)]

/-- `IBAN_LENGTHS.get(country)`. -/
def lookupLength (c : Fin 26 × Fin 26) : Option Nat :=
  (ibanLengths.find? (fun p => p.1 == c)).map Prod.snd

/-- Passing the country-length filter of `detect`
(`if expected_len and len(iban) != expected_len: continue`): whenever the
country has a known expected length, the candidate has that length. -/
def ibanLengthOK (iban : List IChar) : Prop :=
  ∀ c n, ibanCountry iban = some c → lookupLength c = some n →
    iban.length = n

/-- `IBANDetector.detect` on one regex candidate (already uppercased and
whitespace-stripped): drop it when the country has a known expected length
and the length of the candidate differs; otherwise emit an IBAN match with
confidence 1.0 when the mod-97 checksum holds, else 0.7.  `txt` and `[s, e)`
are the raw matched text and span. -/
def ibanDetectCandidate (txt : List Char) (s e : Nat)
    (iban : List IChar) : List PIIMatch :=
  let emit : List PIIMatch := [⟨.IBAN, txt, s, e,
    if ibanChecksum iban then 1 else mkRat 7 10, "iban"⟩]
  match ibanCountry iban with
  | some c =>
      match lookupLength c with
      | some n => if iban.length ≠ n then [] else emit
      | none => emit
  | none => emit

/-- An IBAN candidate matching the detector pattern whose last character is
the digit `d`: two letters, two digits, a middle part, and `d`. -/
def ibanOf (l1 l2 : Fin 26) (d1 d2 : Fin 10) (mid : List IChar)
    (d : Fin 10) : List IChar :=
  .letter l1 :: .letter l2 :: .digit d1 :: .digit d2 ::
    (mid ++ [.digit d])

theorem ibanNumAcc_eq : ∀ (l : List IChar) (acc : Nat),
    ibanNumAcc acc l = acc * 10 ^ ibanDigLen l + ibanNumeric l
  | [], acc => by simp [ibanNumAcc, ibanNumeric, ibanDigLen]
  | .digit d :: r, acc => by
    have h1 := ibanNumAcc_eq r (acc * 10 + d.val)
    have h2 := ibanNumAcc_eq r d.val
    simp only [ibanNumAcc, ibanNumeric, ibanDigLen, Nat.zero_mul,
      Nat.zero_add] at *
    rw [h1, h2]
    ring
  | .letter v :: r, acc => by
    have h1 := ibanNumAcc_eq r (acc * 100 + (10 + v.val))
    have h2 := ibanNumAcc_eq r (10 + v.val)
    simp only [ibanNumAcc, ibanNumeric, ibanDigLen, Nat.zero_mul,
      Nat.zero_add] at *
    rw [h1, h2]
    ring

theorem ibanNumAcc_append : ∀ (a b : List IChar) (acc : Nat),
    ibanNumAcc acc (a ++ b) = ibanNumAcc (ibanNumAcc acc a) b
  | [], _, _ => rfl
  | .digit _ :: r, b, acc => by
    simp only [List.cons_append, ibanNumAcc]
    exact ibanNumAcc_append r b _
  | .letter _ :: r, b, acc => by
    simp only [List.cons_append, ibanNumAcc]
    exact ibanNumAcc_append r b _

theorem ibanNumeric_append (a b : List IChar) :
    ibanNumeric (a ++ b) =
      ibanNumeric a * 10 ^ ibanDigLen b + ibanNumeric b := by
  rw [ibanNumeric, ibanNumAcc_append a b 0, ibanNumAcc_eq b]
  rfl

/-- If both candidates pass the checksum after replacing the last digit, the
two digits agree: a single last-digit change always breaks mod 97. -/
theorem ibanChecksum_last_digit (l1 l2 : Fin 26) (d1 d2 : Fin 10)
    (mid : List IChar) (d d' : Fin 10) (hne : d' ≠ d)
    (hvalid : ibanChecksum (ibanOf l1 l2 d1 d2 mid d) = true) :
    ibanChecksum (ibanOf l1 l2 d1 d2 mid d') = false := by
  have hnum : ∀ x : Fin 10,
      ibanNumeric ((ibanOf l1 l2 d1 d2 mid x).drop 4 ++
        (ibanOf l1 l2 d1 d2 mid x).take 4) =
      ibanNumeric mid * 10 ^ 7 + x.val * 10 ^ 6 +
        ibanNumeric [.letter l1, .letter l2, .digit d1, .digit d2] := by
    intro x
    show ibanNumeric ((mid ++ [.digit x]) ++
      [.letter l1, .letter l2, .digit d1, .digit d2]) = _
    rw [List.append_assoc, ibanNumeric_append]
    have hdl : ibanDigLen ([IChar.digit x] ++
        [.letter l1, .letter l2, .digit d1, .digit d2]) = 7 := rfl
    rw [hdl]
    have hsingle : ibanNumeric ([IChar.digit x] ++
        [.letter l1, .letter l2, .digit d1, .digit d2]) =
        x.val * 10 ^ 6 +
          ibanNumeric [.letter l1, .letter l2, .digit d1, .digit d2] := by
      show ibanNumAcc (0 * 10 + x.val)
        [.letter l1, .letter l2, .digit d1, .digit d2] = _
      rw [Nat.zero_mul, Nat.zero_add, ibanNumAcc_eq]
      rfl
    rw [hsingle]
    ring
  unfold ibanChecksum at hvalid ⊢
  rw [hnum d] at hvalid
  rw [hnum d']
  simp only [beq_iff_eq] at hvalid
  rw [beq_eq_false_iff_ne]
  intro hcontra
  have hd := d.isLt
  have hd' := d'.isLt
  have hmods : (d.val * 1000000) % 97 = (d'.val * 1000000) % 97 := by
    have hv : (ibanNumeric mid * 10000000 + d.val * 1000000 +
        ibanNumeric [.letter l1, .letter l2, .digit d1, .digit d2]) %
        97 = 1 := by
      have : (10:Nat) ^ 7 = 10000000 := by norm_num
      have h6 : (10:Nat) ^ 6 = 1000000 := by norm_num
      rw [this, h6] at hvalid
      exact hvalid
    have hv' : (ibanNumeric mid * 10000000 + d'.val * 1000000 +
        ibanNumeric [.letter l1, .letter l2, .digit d1, .digit d2]) %
        97 = 1 := by
      have : (10:Nat) ^ 7 = 10000000 := by norm_num
      have h6 : (10:Nat) ^ 6 = 1000000 := by norm_num
      rw [this, h6] at hcontra
      exact hcontra
    omega
  have hinj : ∀ a, a < 10 → ∀ b, b < 10 →
      (a * 1000000) % 97 = (b * 1000000) % 97 → a = b := by decide
  exact hne (Fin.ext (hinj d'.val hd' d.val hd hmods.symm))

/-- C6: an IBAN candidate matching the pattern and passing the country-length
filter is emitted with confidence 1.0 when the mod-97 checksum holds, and
replacing its last digit with any different digit still emits a match (never
dropped) but with confidence 0.7, since a single last-digit change always
breaks the mod-97 congruence. -/
theorem C6_iban_mod97 (txt : List Char) (s e : Nat) (l1 l2 : Fin 26)
    (d1 d2 : Fin 10) (mid : List IChar) (d : Fin 10)
    (hmidlen : 3 ≤ mid.length ∧ mid.length ≤ 29)
    (hok : ibanLengthOK (ibanOf l1 l2 d1 d2 mid d))
    (hvalid : ibanChecksum (ibanOf l1 l2 d1 d2 mid d) = true) :
    ibanDetectCandidate txt s e (ibanOf l1 l2 d1 d2 mid d) =
      [⟨.IBAN, txt, s, e, 1, "iban"⟩] ∧
    ∀ d' : Fin 10, d' ≠ d →
      ibanDetectCandidate txt s e (ibanOf l1 l2 d1 d2 mid d') =
        [⟨.IBAN, txt, s, e, mkRat 7 10, "iban"⟩] := by
  have hcountry : ∀ x : Fin 10,
      ibanCountry (ibanOf l1 l2 d1 d2 mid x) = some (l1, l2) := fun _ => rfl
  have hlen : ∀ x : Fin 10, (ibanOf l1 l2 d1 d2 mid x).length =
      mid.length + 5 := by
    intro x
    simp [ibanOf]
  constructor
  · simp only [ibanDetectCandidate, hcountry d, hvalid, if_true]
    cases hl : lookupLength (l1, l2) with
    | some n =>
      have hn := hok (l1, l2) n (hcountry d) hl
      simp [hn]
    | none => rfl
  · intro d' hne
    have hfalse := ibanChecksum_last_digit l1 l2 d1 d2 mid d d' hne hvalid
    simp only [ibanDetectCandidate, hcountry d', hfalse,
      Bool.false_eq_true, if_false]
    cases hl : lookupLength (l1, l2) with
    | some n =>
      have hn : (ibanOf l1 l2 d1 d2 mid d').length = n := by
        rw [hlen d', ← hlen d]
        exact hok (l1, l2) n (hcountry d) hl
      simp [hn]
    | none => rfl

/-- The middle characters of the valid test IBAN DE89370400440532013000
(between the leading `DE89` and the final `0`). -/
def testIbanMid : List IChar :=
  [.digit 3, .digit 7, .digit 0, .digit 4, .digit 0, .digit 0,
   .digit 4, .digit 4, .digit 0, .digit 5, .digit 3, .digit 2,
   .digit 0, .digit 1, .digit 3, .digit 0, .digit 0]

/-- Witness for C6 at a concrete input: DE89370400440532013000 is a valid
German IBAN (mod 97 = 1, length 22) emitted with confidence 1.0; replacing
its final digit 0 by 1 still emits a match, with confidence 0.7. -/
theorem C6_witness :
    ibanDetectCandidate [] 0 22 (ibanOf 3 4 8 9 testIbanMid 0) =
      [⟨.IBAN, [], 0, 22, 1, "iban"⟩] ∧
    ibanDetectCandidate [] 0 22 (ibanOf 3 4 8 9 testIbanMid 1) =
      [⟨.IBAN, [], 0, 22, mkRat 7 10, "iban"⟩] :=
  have hok : ibanLengthOK (ibanOf 3 4 8 9 testIbanMid 0) :=
    fun c n hc hn => by
      rw [show ibanCountry (ibanOf 3 4 8 9 testIbanMid 0) =
        some (3, 4) from rfl] at hc
      rw [← Option.some.inj hc] at hn
      rw [show lookupLength (3, 4) = some 22 from by decide] at hn
      rw [← Option.some.inj hn]
      decide
  ⟨(C6_iban_mod97 [] 0 22 3 4 8 9 testIbanMid 0 (by decide) hok
      (by decide)).1,
   (C6_iban_mod97 [] 0 22 3 4 8 9 testIbanMid 0 (by decide) hok
      (by decide)).2 1 (by decide)⟩

/-! ### German ID detector (`detectors/german_id.py`) -/

/-- `GermanIDDetector.CHAR_VALUES`: digits map to themselves, letters to
`A=10 … Z=35`. -/
def germanCharValue : IChar → Nat
  | .digit d => d.val
  | .letter v => 10 + v.val

/-- `GermanIDDetector.WEIGHTS`. -/
def germanWeights : List Nat := [7, 3, 1, 7, 3, 1, 7, 3, 1]

/-- `GermanIDDetector._calculate_check_digit`: weighted sum of the first
nine character values, mod 10. -/
def germanCheckDigit (id9 : List IChar) : Nat :=
  (List.zipWith (fun c w => germanCharValue c * w) (id9.take 9)
    germanWeights).sum % 10

/-- The issuing-authority letters accepted as first character by the
pattern: L M N P R T V W X Y (letter indices with `A = 0`). -/
def germanFirstLetters : List (Fin 26) :=
  [11, 12, 13, 15, 17, 19, 21, 22, 23, 24]

/-- `sum(1 for c in id_number if c.isdigit())`. -/
def digitCount (l : List IChar) : Nat :=
  l.countP (fun c => match c with | .digit _ => true | .letter _ => false)

/-- `GermanIDDetector.detect` on one regex candidate: `id9` is the
uppercased 9-character group 1, `cd` the optional trailing check digit
(group 2), `txt`/`[s, e)` the matched text and span.  Candidates with fewer
than two digits among the nine characters are skipped; otherwise confidence
is 1.0/0.6 for a correct/incorrect present check digit, 0.8 if absent. -/
def germanIDDetectCandidate (txt : List Char) (s e : Nat)
    (id9 : List IChar) (cd : Option (Fin 10)) : List PIIMatch :=
  if digitCount id9 < 2 then []
  else
    match cd with
    | some c =>
        [⟨.GERMAN_ID, txt, s, e,
          if c.val = germanCheckDigit id9 then 1 else mkRat 6 10,
          "german_id"⟩]
    | none => [⟨.GERMAN_ID, txt, s, e, mkRat 8 10, "german_id"⟩]

/-- The spec-side check digit: character values weighted by the repeating
pattern `[7, 3, 1]` indexed by position, summed, mod 10. -/
def germanSpecCheckDigit (id9 : List IChar) : Nat :=
  (∑ i ∈ Finset.range 9, germanCharValue (id9.getD i (.digit 0)) *
    (if i % 3 = 0 then 7 else if i % 3 = 1 then 3 else 1)) % 10

theorem germanCheckDigit_eq_spec (id9 : List IChar)
    (h : id9.length = 9) :
    germanCheckDigit id9 = germanSpecCheckDigit id9 := by
  rcases id9 with _ | ⟨a, _ | ⟨b, _ | ⟨c, _ | ⟨d, _ | ⟨e, _ | ⟨f,
    _ | ⟨g, _ | ⟨h8, _ | ⟨i9, rest⟩⟩⟩⟩⟩⟩⟩⟩⟩ <;> simp at h
  subst h
  simp [germanCheckDigit, germanSpecCheckDigit, germanWeights,
    Finset.sum_range_succ, List.getD]
  ring_nf

/-- C7: a pattern candidate (valid first letter, nine alphanumerics,
optional trailing digit) with fewer than two digits among its first nine
characters yields no match; otherwise a present correct check digit — the
weighted character-value sum under repeating weights `[7,3,1]`, mod 10 —
yields confidence 1.0, a present incorrect one 0.6, and an absent one 0.8. -/
theorem C7_german_id_check_digit (txt : List Char) (s e : Nat)
    (id9 : List IChar) (cd : Option (Fin 10)) (hlen : id9.length = 9)
    (hfirst : ∃ v ∈ germanFirstLetters, id9.getD 0 (.digit 0) = .letter v) :
    (digitCount id9 < 2 → germanIDDetectCandidate txt s e id9 cd = []) ∧
    (2 ≤ digitCount id9 →
      (∀ c : Fin 10, cd = some c →
        (c.val = germanSpecCheckDigit id9 →
          germanIDDetectCandidate txt s e id9 cd =
            [⟨.GERMAN_ID, txt, s, e, 1, "german_id"⟩]) ∧
        (c.val ≠ germanSpecCheckDigit id9 →
          germanIDDetectCandidate txt s e id9 cd =
            [⟨.GERMAN_ID, txt, s, e, mkRat 6 10, "german_id"⟩])) ∧
      (cd = none →
        germanIDDetectCandidate txt s e id9 cd =
          [⟨.GERMAN_ID, txt, s, e, mkRat 8 10, "german_id"⟩])) := by
  have hspec := germanCheckDigit_eq_spec id9 hlen
  constructor
  · intro hlt
    unfold germanIDDetectCandidate
    rw [if_pos hlt]
  · intro hge
    have hnotlt : ¬ digitCount id9 < 2 := not_lt.mpr hge
    refine ⟨?_, ?_⟩
    · intro c hcd
      subst hcd
      constructor
      · intro hceq
        unfold germanIDDetectCandidate
        rw [if_neg hnotlt]
        rw [← hspec] at hceq
        simp [hceq]
      · intro hcne
        unfold germanIDDetectCandidate
        rw [if_neg hnotlt]
        rw [← hspec] at hcne
        simp [hcne]
    · intro hcd
      subst hcd
      unfold germanIDDetectCandidate
      rw [if_neg hnotlt]

/-- The nine leading characters of the documented example ID `L01X00T471`
(`L 0 1 X 0 0 T 4 7`, letter indices `L=11`, `X=23`, `T=19`). -/
def exampleGermanID : List IChar :=
  [.letter 11, .digit 0, .digit 1, .letter 23, .digit 0, .digit 0,
   .letter 19, .digit 4, .digit 7]

/-- Witness for C7 at a concrete input: the documented example `L01X00T471`
has six digits among its first nine characters and correct check digit 1, so
it is emitted with confidence 1.0; with check digit 2 it gets 0.6and with
none 0.8. -/
theorem C7_witness :
    germanIDDetectCandidate [] 0 10 exampleGermanID (some 1) =
      [⟨.GERMAN_ID, [], 0, 10, 1, "german_id"⟩] ∧
    germanIDDetectCandidate [] 0 10 exampleGermanID (some 2) =
      [⟨.GERMAN_ID, [], 0, 10, mkRat 6 10, "german_id"⟩] ∧
    germanIDDetectCandidate [] 0 10 exampleGermanID none =
      [⟨.GERMAN_ID, [], 0, 10, mkRat 8 10, "german_id"⟩] :=
  ⟨(((C7_german_id_check_digit [] 0 10 exampleGermanID (some 1) (by decide)
      ⟨11, by decide⟩).2 (by decide)).1 1 rfl).1 (by decide),
   (((C7_german_id_check_digit [] 0 10 exampleGermanID (some 2) (by decide)
      ⟨11, by decide⟩).2 (by decide)).1 2 rfl).2 (by decide),
   ((C7_german_id_check_digit [] 0 10 exampleGermanID none (by decide)
      ⟨11, by decide⟩).2 (by decide)).2 rfl⟩

/-! ### Phone detector (`detectors/phone.py`) -/

/-- `MOBILE_PREFIXES` (digit strings, without the leading 0). -/
def mobilePrefixes : List (List Char) :=
  [['1', '5', '0'], ['1', '5', '1'], ['1', '5', '2'], ['1', '5', '5'],
   ['1', '5', '7'], ['1', '5', '9'], ['1', '6', '0'], ['1', '6', '2'],
   ['1', '6', '3'], ['1', '7', '0'], ['1', '7', '1'], ['1', '7', '2'],
   ['1', '7', '3'], ['1', '7', '4'], ['1', '7', '5'], ['1', '7', '6'],
   ['1', '7', '7'], ['1', '7', '8'], ['1', '7', '9']]

/-- `SERVICE_PREFIXES`. -/
def servicePrefixes : List (List Char) :=
  [['8', '0', '0'], ['1', '8', '0'], ['1', '8', '1'], ['1', '8', '2'],
   ['1', '8', '3'], ['1', '8', '4'], ['1', '8', '5'], ['1', '8', '6'],
   ['1', '8', '7'], ['1', '8', '8'], ['1', '8', '9'], ['7', '0', '0'],
   ['9', '0', '0']]

/-- Python `str.lstrip("0")`. -/
def lstripZeros (s : List Char) : List Char :=
  s.dropWhile (fun c => c = '0')

/-- The regex-match data `_calculate_confidence` reads: the whole matched
text (`match.group()`) and capture group 4, the national-format area code
(`none` when the international alternative matched). -/
structure PhoneRegexMatch where
  matched : List Char
  group4 : Option (List Char)
deriving Repr

/-- `PhoneDetector._calculate_confidence`.  `matched_text.startswith(p)` is
`take (length p) = p`; the Python falsy test `if area_code:` is the `≠ []`
check on the optional group. -/
def phoneConfidence (m : PhoneRegexMatch) : ℚ :=
  if m.matched.take 3 = ['+', '4', '9'] then 1
  else if m.matched.take 4 = ['0', '0', '4', '9'] then 1
  else
    let a := m.group4.getD []
    if a ≠ [] then
      if lstripZeros a ∈ mobilePrefixes then mkRat 95 100
      else if lstripZeros a ∈ servicePrefixes then mkRat 95 100
      else if 2 ≤ a.length ∧ a.length ≤ 5 then mkRat 9 10
      else mkRat 8 10
    else mkRat 8 10

/-- The per-match body of `PhoneDetector.detect`: skip the candidate when
its confidence is below 0.7, else emit a PHONE match. -/
def phoneDetectCandidate (s e : Nat) (m : PhoneRegexMatch) :
    List PIIMatch :=
  if phoneConfidence m < mkRat 7 10 then []
  else [⟨.PHONE, m.matched, s, e, phoneConfidence m, "phone"⟩]

/-- What the phone regex guarantees about every match: either the
international alternative matched, so the text begins with `+49` or `0049`,
or the national alternative matched and group 4 captured a 2–5 digit area
code. -/
def PhoneMatchInvariant (m : PhoneRegexMatch) : Prop :=
  (m.matched.take 3 = ['+', '4', '9'] ∨
    m.matched.take 4 = ['0', '0', '4', '9']) ∨
  ∃ a, m.group4 = some a ∧ 2 ≤ a.length ∧ a.length ≤ 5 ∧
    ∀ c ∈ a, c.isDigit

theorem phoneConfidence_cases (m : PhoneRegexMatch)
    (h : PhoneMatchInvariant m) :
    phoneConfidence m = 1 ∨ phoneConfidence m = mkRat 95 100 ∨
      phoneConfidence m = mkRat 9 10 := by
  unfold phoneConfidence
  by_cases h1 : m.matched.take 3 = ['+', '4', '9']
  · simp [h1]
  · rw [if_neg h1]
    by_cases h2 : m.matched.take 4 = ['0', '0', '4', '9']
    · simp [h2]
    · rw [if_neg h2]
      rcases h with (hint | hint) | ⟨a, hg, hlen1, hlen2, _⟩
      · exact absurd hint h1
      · exact absurd hint h2
      · simp only [hg, Option.getD_some]
        have hne : a ≠ [] := by
          intro hnil
          rw [hnil] at hlen1
          simp at hlen1
        rw [if_pos hne]
        by_cases hm : lstripZeros a ∈ mobilePrefixes
        · simp [hm]
        · rw [if_neg hm]
          by_cases hs : lstripZeros a ∈ servicePrefixes
          · simp [hs]
          · rw [if_neg hs, if_pos ⟨hlen1, hlen2⟩]
            simp

/-- C10: under the regex invariant every computed phone confidence lies in
`{0.9, 0.95, 1.0}`, is at least 0.9, and never equals the 0.8 fallback; the
`< 0.7` guard in `detect` therefore never discards a candidate, and a match
starting with `+49` or `0049` (the international branch) always gets 1.0. -/
theorem C10_phone_confidence_floor (m : PhoneRegexMatch)
    (h : PhoneMatchInvariant m) :
    (phoneConfidence m = 1 ∨ phoneConfidence m = mkRat 95 100 ∨
      phoneConfidence m = mkRat 9 10) ∧
    mkRat 9 10 ≤ phoneConfidence m ∧
    phoneConfidence m ≠ mkRat 8 10 ∧
    (∀ s e, phoneDetectCandidate s e m =
      [⟨.PHONE, m.matched, s, e, phoneConfidence m, "phone"⟩]) ∧
    ((m.matched.take 3 = ['+', '4', '9'] ∨
      m.matched.take 4 = ['0', '0', '4', '9']) → phoneConfidence m = 1) := by
  have hc := phoneConfidence_cases m h
  refine ⟨hc, ?_, ?_, ?_, ?_⟩
  · rcases hc with h1 | h1 | h1 <;> rw [h1] <;> decide
  · rcases hc with h1 | h1 | h1 <;> rw [h1] <;> decide
  · intro s e
    unfold phoneDetectCandidate
    rw [if_neg]
    rcases hc with h1 | h1 | h1 <;> rw [h1] <;> decide
  · intro hint
    unfold phoneConfidence
    rcases hint with h1 | h1
    · simp [h1]
    · by_cases h0 : m.matched.take 3 = ['+', '4', '9']
      · simp [h0]
      · rw [if_neg h0]
        simp [h1]

/-- International-format phone match for the C10 witness: `+4930123456`. -/
def phoneWitIntl : PhoneRegexMatch :=
  ⟨['+', '4', '9', '3', '0', '1', '2', '3', '4', '5', '6'], none⟩

/-- National-format phone match for the C10 witness: `03012345678` with
captured area code `30`. -/
def phoneWitNat : PhoneRegexMatch :=
  ⟨['0', '3', '0', '1', '2', '3', '4', '5', '6', '7', '8'],
   some ['3', '0']⟩

/-- Witness for C10 at concrete inputs: the international match gets
confidence 1.0 and the national match with area code `30` gets at least
0.9. -/
theorem C10_witness :
    phoneConfidence phoneWitIntl = 1 ∧
    mkRat 9 10 ≤ phoneConfidence phoneWitNat :=
  ⟨(C10_phone_confidence_floor phoneWitIntl
      (Or.inl (Or.inl (by decide)))).2.2.2.2 (Or.inl (by decide)),
   (C10_phone_confidence_floor phoneWitNat
      (Or.inr ⟨['3', '0'], rfl, by decide, by decide, by decide⟩)).2.1⟩

/-! ### Rule-based detector contract (C8: `email.py`, `ip.py`,
`credit_card.py`)

The regex engine (`re.finditer`) is not repository code; it is abstracted by
handing each detector the list of regex matches (span + matched text) and
assuming the `finditer` contract: returned spans index into the text and
`text[start:end]` equals the matched text.  Likewise `ipaddress` (stdlib) is
abstracted as an arbitrary validity predicate.  A `ValueError` raised inside
`detect` (from the `PIIMatch` constructor, or from `int(char)` in
`_luhn_check`) would abort the whole call, so `detect` is modelled in
`Except`. -/

/-- One regex match: a span into the text and the matched (group) text. -/
structure RegexSpan where
  gstart : Nat
  gstop : Nat
  gtext : List Char
deriving Repr

/-- The `re.finditer` contract for a match over `text`. -/
def SpanOf (text : List Char) (r : RegexSpan) : Prop :=
  r.gstart ≤ r.gstop ∧ r.gstop ≤ text.length ∧
    (text.drop r.gstart).take (r.gstop - r.gstart) = r.gtext

/-- The span property of the claim: `text[start:end] == match.text`. -/
def matchSpanOK (text : List Char) (m : PIIMatch) : Prop :=
  (text.drop m.start).take (m.stop - m.start) = m.text

/-- `EmailDetector.detect`, parameterised by the regex matches: every match
is turned into an EMAIL `PIIMatch` with confidence 1.0. -/
def emailDetect : List RegexSpan → Except String (List PIIMatch)
  | [] => .ok []
  | r :: rest => do
    let m ← mkPIIMatch .EMAIL r.gtext r.gstart r.gstop 1 "email"
    let l ← emailDetect rest
    return m :: l

/-- `IPAddressDetector.detect` for one address family, parameterised by the
group-1 regex matches and the stdlib `ipaddress` validity test `valid`:
invalid candidates are skipped, valid ones emitted with confidence 1.0.
The full detector runs this for the IPv4 and IPv6 patterns in turn. -/
def ipDetect (valid : List Char → Bool) :
    List RegexSpan → Except String (List PIIMatch)
  | [] => .ok []
  | r :: rest =>
      if valid r.gtext then do
        let m ← mkPIIMatch .IP_ADDRESS r.gtext r.gstart r.gstop 1
          "ip_address"
        let l ← ipDetect valid rest
        return m :: l
      else ipDetect valid rest

/-- `int(char)`: the digit value, or a raised `ValueError` for a
non-digit. -/
def charDigit (c : Char) : Option Nat :=
  if c.isDigit then some (c.toNat - 48) else none

/-- `int(char)` over a whole string (the loop of `_luhn_check`): `none` as soon
as one character is not a digit. -/
def charDigits : List Char → Option (List Nat)
  | [] => some []
  | c :: r =>
      match charDigit c, charDigits r with
      | some d, some ds => some (d :: ds)
      | _, _ => none

/-- `re.sub(r"[\s\-]", "", card_text)`: remove whitespace and hyphens. -/
def stripSeparators (s : List Char) : List Char :=
  s.filter (fun c => ¬ (c.isWhitespace ∨ c = '-'))

/-- `CreditCardDetector.detect`, parameterised by the regex matches: strip
separators, skip candidates outside 13–19 digits, run Luhn (whose `int`
conversions raise on a non-digit — unreachable for regex candidates), skip
Luhn failures, emit the rest with confidence 1.0. -/
def creditCardDetect : List RegexSpan → Except String (List PIIMatch)
  | [] => .ok []
  | r :: rest =>
      let digits := stripSeparators r.gtext
      if digits.length < 13 ∨ 19 < digits.length then creditCardDetect rest
      else
        match charDigits digits with
        | none => .error "invalid literal for int() with base 10"
        | some ds =>
            if luhnCheck ds then do
              let m ← mkPIIMatch .CREDIT_CARD r.gtext r.gstart r.gstop 1
                "credit_card"
              let l ← creditCardDetect rest
              return m :: l
            else creditCardDetect rest

theorem mkPIIMatch_nat_ok (t : PIIType) (txt : List Char) (s e : Nat)
    (conf : ℚ) (det : String) (hse : s ≤ e)
    (hconf : 0 ≤ conf ∧ conf ≤ 1) :
    mkPIIMatch t txt (s : Int) (e : Int) conf det =
      .ok ⟨t, txt, s, e, conf, det⟩ := by
  unfold mkPIIMatch
  rw [if_neg (not_lt.mpr (Int.natCast_nonneg s)),
    if_neg (not_lt.mpr (by exact_mod_cast hse)),
    if_neg (not_not_intro hconf)]
  simp

theorem emailDetect_ok (text : List Char) :
    ∀ rms : List RegexSpan, (∀ r ∈ rms, SpanOf text r) →
      ∃ l, emailDetect rms = .ok l ∧ l.length = rms.length ∧
        ∀ m ∈ l, matchSpanOK text m
  | [], _ => ⟨[], rfl, rfl, by simp⟩
  | r :: rest, h => by
    obtain ⟨hse, _, htxt⟩ := h r (List.mem_cons_self _ _)
    obtain ⟨l, hl, hlen, hspan⟩ :=
      emailDetect_ok text rest (fun x hx => h x (List.mem_cons_of_mem _ hx))
    refine ⟨⟨.EMAIL, r.gtext, r.gstart, r.gstop, 1, "email"⟩ :: l, ?_, ?_, ?_⟩
    · unfold emailDetect
      rw [mkPIIMatch_nat_ok .EMAIL r.gtext r.gstart r.gstop 1 "email" hse
        ⟨by norm_num, by norm_num⟩, hl]
      rfl
    · simp [hlen]
    · intro m hm
      rcases List.mem_cons.mp hm with rfl | hm
      · exact htxt
      · exact hspan m hm

theorem ipDetect_ok (text : List Char) (valid : List Char → Bool) :
    ∀ rms : List RegexSpan, (∀ r ∈ rms, SpanOf text r) →
      ∃ l, ipDetect valid rms = .ok l ∧ (rms = [] → l = []) ∧
        ∀ m ∈ l, matchSpanOK text m
  | [], _ => ⟨[], rfl, fun _ => rfl, by simp⟩
  | r :: rest, h => by
    obtain ⟨hse, _, htxt⟩ := h r (List.mem_cons_self _ _)
    obtain ⟨l, hl, _, hspan⟩ :=
      ipDetect_ok text valid rest
        (fun x hx => h x (List.mem_cons_of_mem _ hx))
    by_cases hv : valid r.gtext
    · refine ⟨⟨.IP_ADDRESS, r.gtext, r.gstart, r.gstop, 1, "ip_address"⟩ ::
        l, ?_, by simp, ?_⟩
      · unfold ipDetect
        rw [if_pos hv, mkPIIMatch_nat_ok .IP_ADDRESS r.gtext r.gstart
          r.gstop 1 "ip_address" hse ⟨by norm_num, by norm_num⟩, hl]
        rfl
      · intro m hm
        rcases List.mem_cons.mp hm with rfl | hm
        · exact htxt
        · exact hspan m hm
    · refine ⟨l, ?_, by simp, hspan⟩
      unfold ipDetect
      rw [if_neg hv]
      exact hl

theorem charDigits_of_digits (s : List Char)
    (h : ∀ c ∈ s, c.isDigit = true) : ∃ ds, charDigits s = some ds := by
  induction s with
  | nil => exact ⟨[], rfl⟩
  | cons c r ih =>
    obtain ⟨ds, hds⟩ := ih (fun x hx => h x (List.mem_cons_of_mem _ hx))
    refine ⟨(c.toNat - 48) :: ds, ?_⟩
    unfold charDigits charDigit
    rw [if_pos (h c (List.mem_cons_self _ _)), hds]

theorem creditCardDetect_ok (text : List Char) :
    ∀ rms : List RegexSpan,
      (∀ r ∈ rms, SpanOf text r ∧
        ∀ c ∈ r.gtext, c.isDigit ∨ c.isWhitespace ∨ c = '-') →
      ∃ l, creditCardDetect rms = .ok l ∧ (rms = [] → l = []) ∧
        ∀ m ∈ l, matchSpanOK text m
  | [], _ => ⟨[], rfl, fun _ => rfl, by simp⟩
  | r :: rest, h => by
    obtain ⟨⟨hse, _, htxt⟩, hclass⟩ := h r (List.mem_cons_self _ _)
    obtain ⟨l, hl, _, hspan⟩ :=
      creditCardDetect_ok text rest
        (fun x hx => h x (List.mem_cons_of_mem _ hx))
    by_cases hlen : (stripSeparators r.gtext).length < 13 ∨
        19 < (stripSeparators r.gtext).length
    · refine ⟨l, ?_, by simp, hspan⟩
      unfold creditCardDetect
      rw [if_pos hlen]
      exact hl
    · have hdig : ∀ c ∈ stripSeparators r.gtext, c.isDigit = true := by
        intro c hc
        have hmem := List.mem_of_mem_filter hc
        have hkeep := List.of_mem_filter hc
        simp only [decide_eq_true_iff, not_or] at hkeep
        rcases hclass c hmem with hd | hw | hh
        · exact hd
        · exact absurd hw (by simpa using hkeep.1)
        · exact absurd hh (by simpa using hkeep.2)
      obtain ⟨ds, hds⟩ := charDigits_of_digits (stripSeparators r.gtext) hdig
      by_cases hluhn : luhnCheck ds
      · refine ⟨⟨.CREDIT_CARD, r.gtext, r.gstart, r.gstop, 1,
          "credit_card"⟩ :: l, ?_, by simp, ?_⟩
        · unfold creditCardDetect
          rw [if_neg hlen, hds]
          simp only [hluhn, if_true]
          rw [mkPIIMatch_nat_ok .CREDIT_CARD r.gtext r.gstart r.gstop 1
            "credit_card" hse ⟨by norm_num, by norm_num⟩, hl]
          rfl
        · intro m hm
          rcases List.mem_cons.mp hm with rfl | hm
          · exact htxt
          · exact hspan m hm
      · refine ⟨l, ?_, by simp, hspan⟩
        unfold creditCardDetect
        rw [if_neg hlen, hds]
        simp only [hluhn, if_false]
        exact hl

/-- C8: under the `finditer` contract (spans index into the text and
`text[start:end]` equals the matched text; credit-card candidates consist of
digits, whitespace and hyphens), the email, IP and credit-card detectors
never raise — the `PIIMatch` constructor and `int(char)` conversions always
succeed — they return the empty list when given no regex matches, and every
emitted match `m` satisfies `text[m.start:m.end] == m.text`. -/
theorem C8_detectors_never_raise_span_exact (text : List Char)
    (rmsEmail rmsIp rmsCard : List RegexSpan) (valid : List Char → Bool)
    (hEmail : ∀ r ∈ rmsEmail, SpanOf text r)
    (hIp : ∀ r ∈ rmsIp, SpanOf text r)
    (hCard : ∀ r ∈ rmsCard, SpanOf text r ∧
      ∀ c ∈ r.gtext, c.isDigit ∨ c.isWhitespace ∨ c = '-') :
    (∃ l, emailDetect rmsEmail = .ok l ∧ (rmsEmail = [] → l = []) ∧
      ∀ m ∈ l, matchSpanOK text m) ∧
    (∃ l, ipDetect valid rmsIp = .ok l ∧ (rmsIp = [] → l = []) ∧
      ∀ m ∈ l, matchSpanOK text m) ∧
    (∃ l, creditCardDetect rmsCard = .ok l ∧ (rmsCard = [] → l = []) ∧
      ∀ m ∈ l, matchSpanOK text m) := by
  obtain ⟨l1, h1, hlen1, hs1⟩ := emailDetect_ok text rmsEmail hEmail
  refine ⟨⟨l1, h1, ?_, hs1⟩, ipDetect_ok text valid rmsIp hIp,
    creditCardDetect_ok text rmsCard hCard⟩
  intro hnil
  rw [hnil] at hlen1
  exact List.eq_nil_of_length_eq_zero hlen1

/-- The text of the C8 witness: the sixteen digits of 4111111111111111. -/
def cardText : List Char :=
  ['4', '1', '1', '1', '1', '1', '1', '1', '1', '1', '1', '1', '1', '1',
   '1', '1']

/-- Witness for C8 at a concrete input: on the digit text, the email and IP
detectors (no regex matches) return `.ok []` and the credit-card detector
(one whole-string regex match) returns an `.ok` list whose matches all
satisfy the span property. -/
theorem C8_witness :
    (∃ l, emailDetect [] = .ok l ∧ (([] : List RegexSpan) = [] → l = []) ∧
      ∀ m ∈ l, matchSpanOK cardText m) ∧
    (∃ l, ipDetect (fun _ => true) [] = .ok l ∧
      (([] : List RegexSpan) = [] → l = []) ∧
      ∀ m ∈ l, matchSpanOK cardText m) ∧
    (∃ l, creditCardDetect [⟨0, 16, cardText⟩] = .ok l ∧
      (([⟨0, 16, cardText⟩] : List RegexSpan) = [] → l = []) ∧
      ∀ m ∈ l, matchSpanOK cardText m) :=
  C8_detectors_never_raise_span_exact cardText [] [] [⟨0, 16, cardText⟩]
    (fun _ => true) (by simp) (by simp)
    (by intro r hr
        rw [List.mem_singleton] at hr
        subst hr
        exact ⟨⟨by decide, by decide, by decide⟩, by decide⟩)

end PIIShield
